import Mathlib

set_option linter.unusedSectionVars false

/-!
Verification of the unread-messages model (`src/unread/unreadModel.js`).

The JavaScript module maintains a two-level persistent mapping
`streamId -> topic -> sorted list of unread message ids` (an `Immutable.Map`
of `Immutable.Map`s of `Immutable.List`s), plus a top-level aggregate that
combines it with three sibling sub-states.

Shallow embedding choices:
* `Immutable.Map k v` is modelled as an association list `List (k × v)`
  with lookup by first occurrence; every map manipulated by the code keeps
  its keys duplicate-free (`NodupKeys`), which we prove where needed.
* `Immutable.List number` is `List Int`.
* JavaScript `===` on values stored in these maps is modelled by structural
  equality.  (Empty `Immutable.Map()` / `Immutable.List()` are canonical
  singletons in Immutable.js, so the `=== zero` comparisons in the source
  coincide with structural emptiness.)
* `invariant(...)` (a throw) is modelled by `Except.error`; `logging.warn`
  is modelled by a list of warning strings returned next to the state.
* `Immutable.List#sort` (a stable sort of integers, hence the unique sorted
  permutation) is modelled by insertion sort.
-/

/-- Lookup in an association list: the value of the first entry whose key
matches, mirroring `Immutable.Map#get` (`undefined` ↦ `none`). -/
def alGet {K V : Type} [DecidableEq K] : List (K × V) → K → Option V
  | [], _ => none
  | p :: rest, k => if p.1 = k then some p.2 else alGet rest k

/-- Model of `Immutable.Map#set`: replace the first entry with the given key, or
append a new entry if the key is absent. -/
def alSet {K V : Type} [DecidableEq K] : List (K × V) → K → V → List (K × V)
  | [], k, v => [(k, v)]
  | p :: rest, k, v => if p.1 = k then (k, v) :: rest else p :: alSet rest k v

/-- Model of `Immutable.Map#delete`: remove entries with the given key. -/
def alDelete {K V : Type} [DecidableEq K] : List (K × V) → K → List (K × V)
  | [], _ => []
  | p :: rest, k => if p.1 = k then alDelete rest k else p :: alDelete rest k

/-- Model of `Immutable.Map(pairs)`: build a map from a list of key/value pairs,
later pairs overriding earlier ones. -/
def alOfList {K V : Type} [DecidableEq K] (pairs : List (K × V)) : List (K × V) :=
  pairs.foldl (fun m kv => alSet m kv.1 kv.2) []

/-- The keys of an association list are pairwise distinct. -/
def NodupKeys {K V : Type} (m : List (K × V)) : Prop :=
  (m.map Prod.fst).Nodup

/-- The helper `updateAndPrune` (unreadModel.js lines 95–110): like `Immutable.Map#update`,
but delete the key when the updater returns the `zero` value, and return the
map itself when the updater returns the looked-up value. -/
def updateAndPrune {K V : Type} [DecidableEq K] [DecidableEq V]
    (map : List (K × V)) (zero : V) (key : K) (updater : Option V → V) : List (K × V) :=
  let value := alGet map key
  let newValue := updater value
  if newValue = zero then alDelete map key
  else if value = some newValue then map
  else alSet map key newValue

/-- The helper `updateAllAndPrune` (unreadModel.js lines 127–145): apply `updater` to every
value; drop entries whose new value equals `zero`, keep the original entry when
the value is unchanged, otherwise store the new value.  The `withMutations`
iteration over the original map is modelled entrywise by `filterMap`. -/
def updateAllAndPrune {K V : Type} [DecidableEq V]
    (map : List (K × V)) (zero : V) (updater : V → V) : List (K × V) :=
  map.filterMap (fun kv =>
    let newValue := updater kv.2
    if newValue = zero then none
    else if newValue = kv.2 then some kv
    else some (kv.1, newValue))

/-- Model of `Immutable.Map#mergeWith(merger, other)`: fold the entries of `other` into
`m`, resolving key conflicts with `merger oldValue newValue`. -/
def alMergeWith {K V : Type} [DecidableEq K]
    (merger : V → V → V) (m other : List (K × V)) : List (K × V) :=
  other.foldl (fun acc kv =>
    match alGet acc kv.1 with
    | some old => alSet acc kv.1 (merger old kv.2)
    | none => alSet acc kv.1 kv.2) m

/-- The function `setUnion` (unreadModel.js lines 158–191): two-pointer merge of two sorted
duplicate-free lists. -/
def setUnion : List Int → List Int → List Int
  | [], ys => ys
  | x :: xs, [] => x :: xs
  | x :: xs, y :: ys =>
    if x < y then x :: setUnion xs (y :: ys)
    else if x ≠ y then y :: setUnion (x :: xs) ys
    else x :: setUnion xs ys

/-- Model of `Immutable.List#sort()` on integer lists: the sorted permutation
(stable sort, so uniquely determined by the multiset of elements). -/
def sortList (l : List Int) : List Int :=
  List.insertionSort (fun a b => a ≤ b) l

/-- The stream-unread index: `streamId -> topic -> unread ids`. -/
abbrev StreamMap := List (Int × List (String × List Int))

/-- The constant `initialStreamsState` (unreadModel.js line 92): the empty index. -/
def initialStreamsState : StreamMap := []

/-- Model of `state.getIn([streamId, topic], Immutable.List())`: the unread ids at a
(stream, topic), defaulting to the empty list at every missing level. -/
def getList (s : StreamMap) (sid : Int) (topic : String) : List Int :=
  match alGet s sid with
  | some tm => (alGet tm topic).getD []
  | none => []

/-- Model of `updateIn([sid, topic], fn)` with an `Immutable.List()` default at the
leaf: update the inner list, creating intermediate entries as needed. -/
def updateIn2 (s : StreamMap) (sid : Int) (topic : String)
    (f : List Int → List Int) : StreamMap :=
  let tm := (alGet s sid).getD []
  alSet s sid (alSet tm topic (f ((alGet tm topic).getD [])))

/-- The function `deleteMessagesIn` (unreadModel.js lines 193–204). -/
def deleteMessagesIn (state : StreamMap) (streamId : Int) (topic : String)
    (ids : List Int) : StreamMap :=
  updateAndPrune state [] streamId (fun perStream =>
    updateAndPrune (perStream.getD []) [] topic (fun perTopic =>
      (perTopic.getD []).filter (fun id => ¬ ids.contains id)))

/-- The per-topic updater of `deleteMessages` (unreadModel.js line 215):
`perTopic.find(toDelete) ? perTopic.filterNot(toDelete) : perTopic`.
Note the JavaScript truthiness test: if the first matching id is `0` the
branch is falsy and the list is returned unchanged. -/
def deleteTopicFn (ids : List Int) (perTopic : List Int) : List Int :=
  match perTopic.find? (fun id => ids.contains id) with
  | some v => if v = 0 then perTopic else perTopic.filter (fun id => ¬ ids.contains id)
  | none => perTopic

/-- The function `deleteMessages` (unreadModel.js lines 206–218). -/
def deleteMessages (state : StreamMap) (ids : List Int) : StreamMap :=
  updateAllAndPrune state [] (fun perStream =>
    updateAllAndPrune perStream [] (fun perTopic => deleteTopicFn ids perTopic))

/-- One triple of `action.data.unread_msgs.streams` in `REGISTER_COMPLETE`. -/
structure RegisterEntry where
  stream_id : Int
  topic : String
  unread_message_ids : List Int
  deriving DecidableEq

/-- Modelled from the spec: `DefaultMap` (src/utils/DefaultMap.js, not included
under src/) is "an explicit mapping with an explicit get-or-insert-default
operation"; `byStream.getOrCreate(stream_id).push(...)` appends a
(topic, ids) pair to the stream's accumulator, creating an empty accumulator
on first use (unreadModel.js lines 238–243). -/
def byStreamOf (data : List RegisterEntry) : List (Int × List (String × List Int)) :=
  data.foldl (fun acc e =>
    match alGet acc e.stream_id with
    | some pairs => alSet acc e.stream_id (pairs ++ [(e.topic, e.unread_message_ids)])
    | none => alSet acc e.stream_id [(e.topic, e.unread_message_ids)]) []

/-- The `REGISTER_COMPLETE` rebuild (unreadModel.js lines 229–251): group the
payload triples by stream, then build each stream's topic map in one shot
(`Immutable.Map` of the collected pairs, later pairs winning). -/
def registerStreamsState (data : List RegisterEntry) : StreamMap :=
  (byStreamOf data).map (fun p => (p.1, alOfList p.2))

/-- The message of an `EVENT_NEW_MESSAGE` action, restricted to the fields the
reducer reads.  `flags` is `none` when the event carries no flags field. -/
structure NewMessagePayload where
  type : String
  stream_id : Int
  subject : String
  id : Int
  flags : Option (List String)
  deriving DecidableEq

/-- One entry of `message_details` in an `EVENT_UPDATE_MESSAGE_FLAGS` action. -/
structure MessageDetail where
  type : String
  stream_id : Int
  topic : String
  deriving DecidableEq

/-- The `move` field of an `EVENT_UPDATE_MESSAGE` action. -/
structure MoveInfo where
  orig_stream_id : Int
  orig_topic : String
  new_stream_id : Int
  new_topic : String
  deriving DecidableEq

/-- The actions the streams reducer dispatches on (unreadModel.js lines
225–361).  `registerComplete` carries `action.data.unread_msgs?.streams`
(`none` when the field is missing); `other` stands for every action kind that
falls to the `default` branch. -/
inductive UAction where
  | resetAccountData
  | registerComplete (streams : Option (List RegisterEntry))
  | messageFetchComplete
  | eventNewMessage (message : NewMessagePayload)
  | eventMessageDelete (messageIds : List Int)
  | eventUpdateMessageFlags (flag : String) (op : String) (all : Bool)
      (messages : List Int) (message_details : Option (List (Int × MessageDetail)))
  | eventUpdateMessage (message_ids : List Int) (move : Option MoveInfo)
  | other
  deriving DecidableEq

/-- The warning logged when a read-removal event has no `message_details`
(unreadModel.js line 293). -/
def warnNoDetails : String :=
  "Got update_message_flags/remove/read event without message_details."

/-- The error message of the `invariant` call (unreadModel.js line 267). -/
def invariantNoFlags : String :=
  "message in EVENT_NEW_MESSAGE must have flags"

/-- The side index of newly-unread ids built in the read-removal branch
(unreadModel.js lines 297–314): fold over `action.messages`, appending each id
routed by `message_details` to a `type: stream` location. -/
def newlyUnreadOf (md : List (Int × MessageDetail)) (messages : List Int) : StreamMap :=
  messages.foldl (fun acc id =>
    match alGet md id with
    | some message =>
      if message.type = "stream" then
        updateIn2 acc message.stream_id message.topic (fun l => l ++ [id])
      else acc
    | none => acc) []

/-- Sort every topic's id list (unreadModel.js line 319). -/
def sortNewlyUnread (s : StreamMap) : StreamMap :=
  s.map (fun p => (p.1, p.2.map (fun q => (q.1, sortList q.2))))

/-- The reducer `streamsReducer` (unreadModel.js lines 220–362).  The result is
`Except.error` exactly when the `invariant` call throws; otherwise it is the
new state together with the warnings logged while handling the action. -/
def streamsReducer (state : StreamMap) (action : UAction) :
    Except String (StreamMap × List String) :=
  match action with
  | .resetAccountData => .ok (initialStreamsState, [])
  | .registerComplete data => .ok (registerStreamsState (data.getD []), [])
  | .messageFetchComplete => .ok (state, [])
  | .eventNewMessage message =>
    if message.type ≠ "stream" then .ok (state, [])
    else
      match message.flags with
      | none => .error invariantNoFlags
      | some flags =>
        if flags.contains ("read") then .ok (state, [])
        else .ok (updateIn2 state message.stream_id message.subject
          (fun perTopic => perTopic ++ [message.id]), [])
  | .eventMessageDelete messageIds => .ok (deleteMessages state messageIds, [])
  | .eventUpdateMessageFlags flag op all messages message_details =>
    if flag ≠ "read" then .ok (state, [])
    else if all then .ok (initialStreamsState, [])
    else if op = "remove" then
      match message_details with
      | none => .ok (state, [warnNoDetails])
      | some md =>
        let newlyUnreadState := sortNewlyUnread (newlyUnreadOf md messages)
        .ok (alMergeWith (fun oldTopicsMap newTopicsMap =>
          alMergeWith (fun oldUnread newUnread => setUnion oldUnread newUnread)
            oldTopicsMap newTopicsMap) state newlyUnreadState, [])
    else .ok (deleteMessages state messages, [])
  | .eventUpdateMessage message_ids move =>
    match move with
    | none => .ok (state, [])
    | some mv =>
      let matchingIds := (getList state mv.orig_stream_id mv.orig_topic).filter
        (fun id => message_ids.contains id)
      if matchingIds.isEmpty then .ok (state, [])
      else .ok (updateIn2
        (deleteMessagesIn state mv.orig_stream_id mv.orig_topic message_ids)
        mv.new_stream_id mv.new_topic
        (fun msgs => sortList (msgs ++ matchingIds)), [])
  | .other => .ok (state, [])

/-- The aggregate unread state (`UnreadState`): the streams index plus the
three sub-states owned by the external sibling reducers, whose state types are
abstract here. -/
structure UnreadState (α β γ : Type) where
  streams : StreamMap
  pms : α
  huddles : β
  mentions : γ
  deriving DecidableEq

/-- The top-level `reducer` (unreadModel.js lines 364–385), parametric in the
three external sub-reducers.  Each sub-reducer receives `state?.field`; the
streams sub-reducer's `undefined` default is `initialStreamsState`.  If every
field of the candidate next state equals the corresponding field of the
defined previous state, the previous state itself is returned. -/
def reducer {α β γ : Type} [DecidableEq α] [DecidableEq β] [DecidableEq γ]
    (pmsReducer : Option α → UAction → α)
    (huddlesReducer : Option β → UAction → β)
    (mentionsReducer : Option γ → UAction → γ)
    (state : Option (UnreadState α β γ)) (action : UAction) :
    Except String (UnreadState α β γ × List String) :=
  match streamsReducer ((state.map UnreadState.streams).getD initialStreamsState)
      action with
  | Except.error e => Except.error e
  | Except.ok (streams, warnings) =>
    let nextState : UnreadState α β γ :=
      { streams := streams
        pms := pmsReducer (state.map UnreadState.pms) action
        huddles := huddlesReducer (state.map UnreadState.huddles) action
        mentions := mentionsReducer (state.map UnreadState.mentions) action }
    match state with
    | some s =>
      if nextState.streams = s.streams ∧ nextState.pms = s.pms ∧
          nextState.huddles = s.huddles ∧ nextState.mentions = s.mentions then
        Except.ok (s, warnings)
      else Except.ok (nextState, warnings)
    | none => Except.ok (nextState, warnings)

/-- All message ids present anywhere in the index. -/
def allIds (s : StreamMap) : List Int :=
  (s.map (fun p => (p.2.map Prod.snd).flatten)).flatten

/-- The structural well-formedness every reachable index enjoys: keys are
duplicate-free at both levels. -/
def WF (s : StreamMap) : Prop :=
  NodupKeys s ∧ ∀ p ∈ s, NodupKeys p.2

/-- No stream entry maps to an empty topic map, and no topic entry maps to an
empty id list. -/
def NoEmpty (s : StreamMap) : Prop :=
  ∀ p ∈ s, p.2 ≠ [] ∧ ∀ q ∈ p.2, q.2 ≠ []

/-- Every id list in the index is strictly ascending. -/
def SortedIndex (s : StreamMap) : Prop :=
  ∀ sid topic, List.Pairwise (· < ·) (getList s sid topic)

/-- The preconditions the spec states for each event (spec section 4.3):
registration id lists arrive strictly ascending; a new stream message's id
exceeds every id already present; a read-removal event carries routing details
for every affected message. -/
def PreStated (s : StreamMap) : UAction → Prop
  | .registerComplete data =>
    ∀ e ∈ data.getD [], List.Pairwise (· < ·) e.unread_message_ids
  | .eventNewMessage msg =>
    msg.type = "stream" → ∀ i ∈ allIds s, i < msg.id
  | .eventUpdateMessageFlags flag op all messages message_details =>
    (flag = "read" ∧ op = "remove" ∧ all = false) →
      ∃ md, message_details = some md ∧ ∀ id ∈ messages, (alGet md id).isSome
  | _ => True

/-- The amended preconditions under which the sortedness invariant actually
holds: additionally, a read-removal event lists each message at most once, and
a move event never moves an id into a destination list that already contains
it. -/
def PreSorted (s : StreamMap) : UAction → Prop
  | .registerComplete data =>
    ∀ e ∈ data.getD [], List.Pairwise (· < ·) e.unread_message_ids
  | .eventNewMessage msg =>
    msg.type = "stream" → ∀ i ∈ allIds s, i < msg.id
  | .eventUpdateMessageFlags flag op all messages message_details =>
    (flag = "read" ∧ op = "remove" ∧ all = false) →
      messages.Nodup ∧
      ∃ md, message_details = some md ∧ ∀ id ∈ messages, (alGet md id).isSome
  | .eventUpdateMessage message_ids move =>
    ∀ mv, move = some mv →
      (mv.orig_stream_id, mv.orig_topic) ≠ (mv.new_stream_id, mv.new_topic) →
      ∀ id ∈ message_ids,
        id ∈ getList s mv.orig_stream_id mv.orig_topic →
        id ∉ getList s mv.new_stream_id mv.new_topic
  | _ => True

/-- The amended precondition under which the no-empty-branch invariant holds:
registration triples carry nonempty id lists. -/
def PreNonempty (_s : StreamMap) : UAction → Prop
  | .registerComplete data => ∀ e ∈ data.getD [], e.unread_message_ids ≠ []
  | _ => True

/-- States reachable from the empty index by ok-steps of the reducer whose
actions satisfy the precondition `P`. -/
inductive Reach (P : StreamMap → UAction → Prop) : StreamMap → Prop where
  | init : Reach P initialStreamsState
  | step {s : StreamMap} {a : UAction} {s' : StreamMap} {w : List String} :
      Reach P s → P s a → streamsReducer s a = Except.ok (s', w) → Reach P s'

section AssocLemmas

variable {K V : Type} [DecidableEq K]

theorem alGet_alSet_self (m : List (K × V)) (k : K) (v : V) :
    alGet (alSet m k v) k = some v := by
  induction m with
  | nil => simp [alSet, alGet]
  | cons p rest ih =>
    by_cases h : p.1 = k
    · simp [alSet, h, alGet]
    · simp [alSet, h, alGet, ih]

theorem alGet_alSet_ne (m : List (K × V)) {k k' : K} (v : V) (h : k' ≠ k) :
    alGet (alSet m k v) k' = alGet m k' := by
  have hk : ¬ (k = k') := fun h' => h h'.symm
  induction m with
  | nil => simp [alSet, alGet, hk]
  | cons p rest ih =>
    by_cases hp : p.1 = k
    · have hpk' : ¬ (p.1 = k') := fun h' => h (h'.symm.trans hp)
      simp [alSet, if_pos hp, alGet, hk, hpk']
    · simp [alSet, if_neg hp, alGet, ih]

theorem alGet_alDelete_self (m : List (K × V)) (k : K) :
    alGet (alDelete m k) k = none := by
  induction m with
  | nil => simp [alDelete, alGet]
  | cons p rest ih =>
    by_cases h : p.1 = k
    · simp [alDelete, h, ih]
    · simp [alDelete, h, alGet, ih]

theorem alGet_alDelete_ne (m : List (K × V)) {k k' : K} (h : k' ≠ k) :
    alGet (alDelete m k) k' = alGet m k' := by
  induction m with
  | nil => rfl
  | cons p rest ih =>
    by_cases hp : p.1 = k
    · have hpk' : ¬ (p.1 = k') := fun h' => h (h'.symm.trans hp)
      simp [alDelete, if_pos hp, alGet, hpk', ih]
    · simp [alDelete, if_neg hp, alGet, ih]

theorem alSet_ne_nil (m : List (K × V)) (k : K) (v : V) : alSet m k v ≠ [] := by
  cases m with
  | nil => simp [alSet]
  | cons p rest =>
    by_cases h : p.1 = k <;> simp [alSet, h]

theorem mem_alSet {m : List (K × V)} {k : K} {v : V} {p : K × V}
    (h : p ∈ alSet m k v) : p = (k, v) ∨ p ∈ m := by
  induction m with
  | nil => simpa [alSet] using h
  | cons q rest ih =>
    by_cases hq : q.1 = k
    · rcases (by simpa [alSet, hq] using h) with h' | h'
      · exact Or.inl h'
      · exact Or.inr (List.mem_cons_of_mem _ h')
    · rcases (by simpa [alSet, hq] using h) with h' | h'
      · exact Or.inr (by simp [h'])
      · rcases ih h' with h'' | h''
        · exact Or.inl h''
        · exact Or.inr (List.mem_cons_of_mem _ h'')

theorem mem_alDelete {m : List (K × V)} {k : K} {p : K × V}
    (h : p ∈ alDelete m k) : p ∈ m := by
  induction m with
  | nil => simp [alDelete] at h
  | cons q rest ih =>
    by_cases hq : q.1 = k
    · exact List.mem_cons_of_mem _ (ih (by simpa [alDelete, hq] using h))
    · rcases (by simpa [alDelete, hq] using h) with h' | h'
      · simp [h']
      · exact List.mem_cons_of_mem _ (ih h')

theorem alGet_mem {m : List (K × V)} {k : K} {v : V} (h : alGet m k = some v) :
    (k, v) ∈ m := by
  induction m with
  | nil => simp [alGet] at h
  | cons q rest ih =>
    obtain ⟨a, b⟩ := q
    by_cases hq : a = k
    · simp only [alGet, if_pos hq] at h
      have hb : b = v := by
        have := h
        simp at this
        exact this
      subst hq
      subst hb
      exact List.mem_cons_self _ _
    · have hq' : ¬ ((a, b).1 = k) := hq
      exact List.mem_cons_of_mem _ (ih (by simpa [alGet, hq'] using h))

theorem alGet_eq_none_of_not_mem_keys {m : List (K × V)} {k : K}
    (h : k ∉ m.map Prod.fst) : alGet m k = none := by
  induction m with
  | nil => rfl
  | cons q rest ih =>
    simp only [List.map_cons, List.mem_cons] at h
    push_neg at h
    have hq : ¬ (q.1 = k) := fun h' => h.1 h'.symm
    simp [alGet, hq, ih h.2]

theorem mem_alGet {m : List (K × V)} (hm : NodupKeys m) {k : K} {v : V}
    (h : (k, v) ∈ m) : alGet m k = some v := by
  induction m with
  | nil => simp at h
  | cons q rest ih =>
    rw [NodupKeys, List.map_cons, List.nodup_cons] at hm
    rcases List.mem_cons.1 h with h' | h'
    · simp [alGet, ← h']
    · have hk : q.1 ≠ k := by
        intro hqk
        exact hm.1 (hqk ▸ (List.mem_map_of_mem Prod.fst h'))
      simp [alGet, hk, ih hm.2 h']

theorem keys_alDelete_sublist (m : List (K × V)) (k : K) :
    ((alDelete m k).map Prod.fst).Sublist (m.map Prod.fst) := by
  induction m with
  | nil => simp [alDelete]
  | cons q rest ih =>
    by_cases hq : q.1 = k
    · simpa [alDelete, hq] using ih.trans (List.sublist_cons_self _ _)
    · simpa [alDelete, hq] using ih.cons₂ q.1

theorem nodupKeys_alDelete {m : List (K × V)} (hm : NodupKeys m) (k : K) :
    NodupKeys (alDelete m k) :=
  List.Nodup.sublist (keys_alDelete_sublist m k) hm

theorem nodupKeys_alSet {m : List (K × V)} (hm : NodupKeys m) (k : K) (v : V) :
    NodupKeys (alSet m k v) := by
  induction m with
  | nil => simp [alSet, NodupKeys]
  | cons q rest ih =>
    rw [NodupKeys, List.map_cons, List.nodup_cons] at hm
    by_cases hq : q.1 = k
    · rw [NodupKeys]
      simp only [alSet, hq, if_pos, List.map_cons, List.nodup_cons]
      exact ⟨hq ▸ hm.1, hm.2⟩
    · have ihr := ih hm.2
      rw [NodupKeys]
      simp only [alSet, hq, if_neg, List.map_cons, List.nodup_cons, not_false_iff]
      refine ⟨fun hmem => ?_, ihr⟩
      rcases List.mem_map.1 hmem with ⟨p, hp, hfst⟩
      rcases mem_alSet hp with h' | h'
      · exact hq (by rw [← hfst, h'])
      · exact hm.1 (hfst ▸ List.mem_map_of_mem Prod.fst h')

theorem alDelete_eq_nil_imp {m : List (K × V)} {k : K} (h : alDelete m k = []) :
    ∀ p ∈ m, p.1 = k := by
  induction m with
  | nil => simp
  | cons q rest ih =>
    by_cases hq : q.1 = k
    · simp only [alDelete, hq, if_pos] at h
      intro p hp
      rcases List.mem_cons.1 hp with h' | h'
      · rw [h', hq]
      · exact ih h p h'
    · simp [alDelete, hq] at h

end AssocLemmas

section HelperLemmas

variable {K V : Type} [DecidableEq K] [DecidableEq V]

theorem alGet_updateAndPrune (m : List (K × V)) (z : V) (k : K)
    (f : Option V → V) (k' : K) :
    alGet (updateAndPrune m z k f) k' =
      if k' = k then (if f (alGet m k) = z then none else some (f (alGet m k)))
      else alGet m k' := by
  simp only [updateAndPrune]
  by_cases hz : f (alGet m k) = z
  · rw [if_pos hz]
    by_cases hk : k' = k
    · subst hk
      simp [alGet_alDelete_self, hz]
    · simp [alGet_alDelete_ne _ hk, hk]
  · rw [if_neg hz]
    by_cases hv : alGet m k = some (f (alGet m k))
    · rw [if_pos hv]
      by_cases hk : k' = k
      · subst hk
        rw [if_pos rfl, if_neg hz]
        exact hv
      · simp [hk]
    · rw [if_neg hv]
      by_cases hk : k' = k
      · subst hk
        simp [alGet_alSet_self, hz]
      · simp [alGet_alSet_ne _ _ hk, hk]

theorem mem_updateAndPrune {m : List (K × V)} {z : V} {k : K}
    {f : Option V → V} {p : K × V} (h : p ∈ updateAndPrune m z k f) :
    p ∈ m ∨ (p.1 = k ∧ p.2 = f (alGet m k) ∧ p.2 ≠ z) := by
  simp only [updateAndPrune] at h
  by_cases hz : f (alGet m k) = z
  · rw [if_pos hz] at h
    exact Or.inl (mem_alDelete h)
  · rw [if_neg hz] at h
    by_cases hv : alGet m k = some (f (alGet m k))
    · rw [if_pos hv] at h
      exact Or.inl h
    · rw [if_neg hv] at h
      rcases mem_alSet h with h' | h'
      · right
        subst h'
        exact ⟨rfl, rfl, hz⟩
      · exact Or.inl h'

theorem nodupKeys_updateAndPrune {m : List (K × V)} (hm : NodupKeys m) (z : V) (k : K)
    (f : Option V → V) : NodupKeys (updateAndPrune m z k f) := by
  simp only [updateAndPrune]
  by_cases hz : f (alGet m k) = z
  · rw [if_pos hz]
    exact nodupKeys_alDelete hm k
  · rw [if_neg hz]
    by_cases hv : alGet m k = some (f (alGet m k))
    · rwa [if_pos hv]
    · rw [if_neg hv]
      exact nodupKeys_alSet hm _ _

theorem updateAllAndPrune_eq (m : List (K × V)) (z : V) (f : V → V) :
    updateAllAndPrune m z f
      = m.filterMap (fun kv => if f kv.2 = z then none else some (kv.1, f kv.2)) := by
  simp only [updateAllAndPrune]
  induction m with
  | nil => rfl
  | cons p rest ih =>
    simp only [List.filterMap_cons]
    by_cases hz : f p.2 = z
    · simp [hz, ih]
    · by_cases hv : f p.2 = p.2
      · simp [hz, hv, ih]
      · simp [hz, hv, ih]

theorem updateAllAndPrune_cons (p : K × V) (rest : List (K × V)) (z : V) (f : V → V) :
    updateAllAndPrune (p :: rest) z f =
      if f p.2 = z then updateAllAndPrune rest z f
      else (p.1, f p.2) :: updateAllAndPrune rest z f := by
  rw [updateAllAndPrune_eq, updateAllAndPrune_eq, List.filterMap_cons]
  by_cases hz : f p.2 = z
  · simp [hz]
  · simp [hz]

theorem mem_updateAllAndPrune {m : List (K × V)} {z : V} {f : V → V}
    {p : K × V} (h : p ∈ updateAllAndPrune m z f) :
    ∃ v, (p.1, v) ∈ m ∧ p.2 = f v ∧ f v ≠ z := by
  rw [updateAllAndPrune_eq] at h
  obtain ⟨kv, hkv, h2⟩ := List.mem_filterMap.1 h
  by_cases hz : f kv.2 = z
  · rw [if_pos hz] at h2
    simp at h2
  · rw [if_neg hz] at h2
    obtain rfl : (kv.1, f kv.2) = p := Option.some.inj h2
    exact ⟨kv.2, by simpa using hkv, rfl, hz⟩

theorem keys_updateAllAndPrune_sublist (m : List (K × V)) (z : V) (f : V → V) :
    ((updateAllAndPrune m z f).map Prod.fst).Sublist (m.map Prod.fst) := by
  rw [updateAllAndPrune_eq]
  induction m with
  | nil => simp
  | cons p rest ih =>
    simp only [List.filterMap_cons, List.map_cons]
    by_cases hz : f p.2 = z
    · rw [if_pos hz]
      exact ih.trans (List.sublist_cons_self _ _)
    · rw [if_neg hz]
      simpa using ih.cons₂ p.1

theorem nodupKeys_updateAllAndPrune {m : List (K × V)} (hm : NodupKeys m) (z : V)
    (f : V → V) : NodupKeys (updateAllAndPrune m z f) :=
  List.Nodup.sublist (keys_updateAllAndPrune_sublist m z f) hm

theorem alGet_updateAllAndPrune {m : List (K × V)} (hm : NodupKeys m) (z : V)
    (f : V → V) (k : K) :
    alGet (updateAllAndPrune m z f) k =
      match alGet m k with
      | none => none
      | some v => if f v = z then none else some (f v) := by
  induction m with
  | nil => rfl
  | cons p rest ih =>
    rw [NodupKeys, List.map_cons, List.nodup_cons] at hm
    rw [updateAllAndPrune_cons]
    by_cases hz : f p.2 = z
    · rw [if_pos hz]
      by_cases hk : p.1 = k
      · have hnone : alGet (updateAllAndPrune rest z f) k = none :=
          alGet_eq_none_of_not_mem_keys (fun hmem =>
            hm.1 (hk ▸ (keys_updateAllAndPrune_sublist rest z f).mem hmem))
        simp [alGet, hk, hnone, hz]
      · simp [alGet, hk, ih hm.2]
    · rw [if_neg hz]
      by_cases hk : p.1 = k
      · simp [alGet, hk, hz]
      · simp [alGet, hk, ih hm.2]

theorem updateAllAndPrune_eq_nil {m : List (K × V)} {z : V} {f : V → V}
    (h : updateAllAndPrune m z f = []) : ∀ p ∈ m, f p.2 = z := by
  intro p hp
  by_contra hne
  have hmem : (p.1, f p.2) ∈ updateAllAndPrune m z f := by
    rw [updateAllAndPrune_eq]
    exact List.mem_filterMap.2 ⟨p, hp, by rw [if_neg hne]⟩
  rw [h] at hmem
  simp at hmem

theorem alGet_alMergeWith {f : V → V → V} {other : List (K × V)} (ho : NodupKeys other)
    (m : List (K × V)) (k : K) :
    alGet (alMergeWith f m other) k =
      match alGet other k with
      | some v =>
        some (match alGet m k with
          | some old => f old v
          | none => v)
      | none => alGet m k := by
  induction other generalizing m with
  | nil => rfl
  | cons q rest ih =>
    rw [NodupKeys, List.map_cons, List.nodup_cons] at ho
    simp only [alMergeWith, List.foldl_cons]
    have ih' := fun m' => ih ho.2 m'
    simp only [alMergeWith] at ih'
    rw [ih']
    by_cases hk : q.1 = k
    · have hrest : alGet rest k = none :=
        alGet_eq_none_of_not_mem_keys (fun hmem => ho.1 (hk ▸ hmem))
    
      cases halGet : alGet m q.1 with
      | some old =>
        subst hk
        simp [alGet, hrest, alGet_alSet_self, halGet]
      | none =>
        subst hk
        simp [alGet, hrest, alGet_alSet_self, halGet]
    · have hne : k ≠ q.1 := fun h' => hk h'.symm
      cases halGet : alGet m q.1 with
      | some old => simp [alGet, hk, alGet_alSet_ne _ _ hne]
      | none => simp [alGet, hk, alGet_alSet_ne _ _ hne]

theorem mem_alMergeWith {f : V → V → V} {other : List (K × V)} (ho : NodupKeys other)
    {m : List (K × V)} {p : K × V} (h : p ∈ alMergeWith f m other) :
    p ∈ m ∨ ∃ q ∈ other, p.1 = q.1 ∧
      ((alGet m q.1 = none ∧ p.2 = q.2) ∨
        ∃ old, alGet m q.1 = some old ∧ p.2 = f old q.2) := by
  induction other generalizing m with
  | nil => exact Or.inl h
  | cons q rest ih =>
    rw [NodupKeys, List.map_cons, List.nodup_cons] at ho
    simp only [alMergeWith, List.foldl_cons] at h
    cases halGet : alGet m q.1 with
    | some old =>
      rw [halGet] at h
      rcases ih ho.2 h with h' | ⟨q', hq', hfst, hrest⟩
      · rcases mem_alSet h' with h'' | h''
        · subst h''
          exact Or.inr ⟨q, List.mem_cons_self _ _, rfl,
            Or.inr ⟨old, halGet, rfl⟩⟩
        · exact Or.inl h''
      · have hne : q'.1 ≠ q.1 := fun he =>
          ho.1 (he ▸ List.mem_map_of_mem Prod.fst hq')
        rw [alGet_alSet_ne _ _ hne] at hrest
        exact Or.inr ⟨q', List.mem_cons_of_mem _ hq', hfst, hrest⟩
    | none =>
      rw [halGet] at h
      rcases ih ho.2 h with h' | ⟨q', hq', hfst, hrest⟩
      · rcases mem_alSet h' with h'' | h''
        · subst h''
          exact Or.inr ⟨q, List.mem_cons_self _ _, rfl, Or.inl ⟨halGet, rfl⟩⟩
        · exact Or.inl h''
      · have hne : q'.1 ≠ q.1 := fun he =>
          ho.1 (he ▸ List.mem_map_of_mem Prod.fst hq')
        rw [alGet_alSet_ne _ _ hne] at hrest
        exact Or.inr ⟨q', List.mem_cons_of_mem _ hq', hfst, hrest⟩

theorem nodupKeys_alMergeWith {f : V → V → V} {m other : List (K × V)}
    (hm : NodupKeys m) : NodupKeys (alMergeWith f m other) := by
  induction other generalizing m with
  | nil => exact hm
  | cons q rest ih =>
    simp only [alMergeWith, List.foldl_cons]
    cases halGet : alGet m q.1 with
    | some old => exact ih (nodupKeys_alSet hm _ _)
    | none => exact ih (nodupKeys_alSet hm _ _)

theorem alMergeWith_ne_nil {f : V → V → V} {m other : List (K × V)}
    (hm : m ≠ [] ∨ other ≠ []) : alMergeWith f m other ≠ [] := by
  induction other generalizing m with
  | nil =>
    rcases hm with h | h
    · exact h
    · simp at h
  | cons q rest ih =>
    simp only [alMergeWith, List.foldl_cons]
    cases halGet : alGet m q.1 with
    | some old => exact ih (Or.inl (alSet_ne_nil _ _ _))
    | none => exact ih (Or.inl (alSet_ne_nil _ _ _))

end HelperLemmas

section SetUnionLemmas

theorem mem_setUnion (a : Int) (xs ys : List Int) :
    a ∈ setUnion xs ys ↔ a ∈ xs ∨ a ∈ ys := by
  induction xs, ys using setUnion.induct with
  | case1 ys => simp [setUnion]
  | case2 x xs => simp [setUnion]
  | case3 x xs y ys h ih =>
    simp only [setUnion, if_pos h, List.mem_cons, ih]
    tauto
  | case4 x xs y ys h hne ih =>
    simp only [setUnion, if_neg h, if_pos hne, List.mem_cons, ih]
    tauto
  | case5 x xs y ys h hne ih =>
    have hxy : x = y := not_not.1 hne
    subst hxy
    simp only [setUnion, if_neg h, if_neg hne, List.mem_cons, ih]
    tauto

theorem setUnion_nil_right (xs : List Int) : setUnion xs [] = xs := by
  cases xs <;> simp [setUnion]

theorem setUnion_nil_left (ys : List Int) : setUnion [] ys = ys := by
  simp [setUnion]

theorem setUnion_self (xs : List Int) : setUnion xs xs = xs := by
  induction xs with
  | nil => simp [setUnion]
  | cons x xs ih => simp [setUnion, ih]

theorem pairwise_setUnion (xs ys : List Int) :
    List.Pairwise (· < ·) xs → List.Pairwise (· < ·) ys →
      List.Pairwise (· < ·) (setUnion xs ys) := by
  induction xs, ys using setUnion.induct with
  | case1 ys =>
    intro _ hy
    simpa [setUnion] using hy
  | case2 x xs =>
    intro hx _
    simpa [setUnion] using hx
  | case3 x xs y ys h ih =>
    intro hx hy
    rw [List.pairwise_cons] at hx
    rw [setUnion, if_pos h, List.pairwise_cons]
    refine ⟨fun b hb => ?_, ih hx.2 hy⟩
    rcases (mem_setUnion b xs (y :: ys)).1 hb with hbx | hby
    · exact hx.1 b hbx
    · rcases List.mem_cons.1 hby with rfl | hbys
      · exact h
      · rw [List.pairwise_cons] at hy
        exact h.trans (hy.1 b hbys)
  | case4 x xs y ys h hne ih =>
    intro hx hy
    rw [List.pairwise_cons] at hy
    rw [setUnion, if_neg h, if_pos hne, List.pairwise_cons]
    have hyx : y < x := lt_of_le_of_ne (not_lt.1 h) (fun he => hne he.symm)
    refine ⟨fun b hb => ?_, ih hx hy.2⟩
    rcases (mem_setUnion b (x :: xs) ys).1 hb with hbx | hbys
    · rcases List.mem_cons.1 hbx with rfl | hbxs
      · exact hyx
      · rw [List.pairwise_cons] at hx
        exact hyx.trans (hx.1 b hbxs)
    · exact hy.1 b hbys
  | case5 x xs y ys h hne ih =>
    intro hx hy
    have hxy : x = y := not_not.1 hne
    subst hxy
    rw [List.pairwise_cons] at hx hy
    rw [setUnion, if_neg h, if_neg hne, List.pairwise_cons]
    refine ⟨fun b hb => ?_, ih hx.2 hy.2⟩
    rcases (mem_setUnion b xs ys).1 hb with hbx | hbys
    · exact hx.1 b hbx
    · exact hy.1 b hbys

theorem nodup_of_pairwise_lt {l : List Int} (h : List.Pairwise (· < ·) l) :
    l.Nodup :=
  h.imp (fun hab => ne_of_lt hab)

theorem setUnion_ne_nil {xs ys : List Int} (h : xs ≠ [] ∨ ys ≠ []) :
    setUnion xs ys ≠ [] := by
  intro he
  rcases h with h | h
  · obtain ⟨x, hx⟩ := List.exists_mem_of_ne_nil xs h
    have hmem := (mem_setUnion x xs ys).2 (Or.inl hx)
    rw [he] at hmem
    simp at hmem
  · obtain ⟨y, hy⟩ := List.exists_mem_of_ne_nil ys h
    have hmem := (mem_setUnion y xs ys).2 (Or.inr hy)
    rw [he] at hmem
    simp at hmem

theorem sortList_perm (l : List Int) : (sortList l).Perm l :=
  List.perm_insertionSort _ l

theorem sortList_sorted (l : List Int) :
    List.Pairwise (fun a b : Int => a ≤ b) (sortList l) :=
  List.sorted_insertionSort _ l

theorem pairwise_lt_of_le_nodup {l : List Int}
    (h : List.Pairwise (fun a b : Int => a ≤ b) l) (hn : l.Nodup) :
    List.Pairwise (· < ·) l := by
  induction l with
  | nil => simp
  | cons x xs ih =>
    rw [List.pairwise_cons] at h ⊢
    rw [List.nodup_cons] at hn
    exact ⟨fun b hb => lt_of_le_of_ne (h.1 b hb) (fun he => hn.1 (he ▸ hb)),
      ih h.2 hn.2⟩

theorem sortList_pairwise_lt {l : List Int} (h : l.Nodup) :
    List.Pairwise (· < ·) (sortList l) :=
  pairwise_lt_of_le_nodup (sortList_sorted l) ((sortList_perm l).nodup_iff.2 h)

theorem sortList_ne_nil {l : List Int} (h : l ≠ []) : sortList l ≠ [] := by
  intro he
  have hp := sortList_perm l
  rw [he] at hp
  exact h hp.nil_eq.symm

end SetUnionLemmas

section IndexLemmas

theorem getList_def2 (s : StreamMap) (sid : Int) (t : String) :
    getList s sid t = (alGet ((alGet s sid).getD []) t).getD [] := by
  cases hs : alGet s sid with
  | some tm => simp [getList, hs]
  | none => simp [getList, hs, alGet]

theorem getList_updateIn2 (s : StreamMap) (a : Int) (b : String)
    (f : List Int → List Int) (c : Int) (d : String) :
    getList (updateIn2 s a b f) c d =
      if c = a ∧ d = b then f (getList s a b) else getList s c d := by
  by_cases hc : c = a
  · subst hc
    by_cases hd : d = b
    · subst hd
      rw [if_pos ⟨rfl, rfl⟩, getList_def2, getList_def2]
      simp only [updateIn2]
      rw [alGet_alSet_self]
      simp only [Option.getD_some]
      rw [alGet_alSet_self]
      simp only [Option.getD_some]
    · rw [if_neg (fun h => hd h.2), getList_def2, getList_def2]
      simp only [updateIn2]
      rw [alGet_alSet_self]
      simp only [Option.getD_some]
      rw [alGet_alSet_ne _ _ hd]
  · rw [if_neg (fun h => hc h.1), getList_def2, getList_def2]
    simp only [updateIn2]
    rw [alGet_alSet_ne _ _ hc]

theorem updateAndPrune_eq_nil {K V : Type} [DecidableEq K] [DecidableEq V]
    {m : List (K × V)} {z : V} {k : K} {f : Option V → V}
    (h : updateAndPrune m z k f = []) : f (alGet m k) = z ∨ m = [] := by
  simp only [updateAndPrune] at h
  by_cases hz : f (alGet m k) = z
  · exact Or.inl hz
  · rw [if_neg hz] at h
    by_cases hv : alGet m k = some (f (alGet m k))
    · rw [if_pos hv] at h
      exact Or.inr h
    · rw [if_neg hv] at h
      exact absurd h (alSet_ne_nil _ _ _)

theorem updateAndPrune_eq_nil_get_ne {K V : Type} [DecidableEq K] [DecidableEq V]
    {m : List (K × V)} {z : V} {k : K} {f : Option V → V}
    (h : updateAndPrune m z k f = []) {k' : K} (hne : k' ≠ k) :
    alGet m k' = none := by
  simp only [updateAndPrune] at h
  by_cases hz : f (alGet m k) = z
  · rw [if_pos hz] at h
    refine alGet_eq_none_of_not_mem_keys (fun hmem => ?_)
    obtain ⟨p, hp, hfst⟩ := List.mem_map.1 hmem
    exact hne (hfst ▸ alDelete_eq_nil_imp h p hp)
  · rw [if_neg hz] at h
    by_cases hv : alGet m k = some (f (alGet m k))
    · rw [if_pos hv] at h
      subst h
      rfl
    · rw [if_neg hv] at h
      exact absurd h (alSet_ne_nil _ _ _)

theorem alGet_updateAllAndPrune_some {K V : Type} [DecidableEq K] [DecidableEq V]
    {m : List (K × V)} (hm : NodupKeys m) {z : V} {f : V → V} {k : K} {v : V}
    (hs : alGet m k = some v) :
    alGet (updateAllAndPrune m z f) k = if f v = z then none else some (f v) := by
  rw [alGet_updateAllAndPrune hm, hs]

theorem alGet_updateAllAndPrune_none {K V : Type} [DecidableEq K] [DecidableEq V]
    {m : List (K × V)} (hm : NodupKeys m) {z : V} {f : V → V} {k : K}
    (hs : alGet m k = none) :
    alGet (updateAllAndPrune m z f) k = none := by
  rw [alGet_updateAllAndPrune hm, hs]

theorem deleteTopicFn_nil (ids : List Int) : deleteTopicFn ids [] = [] := by
  simp [deleteTopicFn]

theorem nodupKeys_getD_alGet {s : StreamMap} (hwf : WF s) (a : Int) :
    NodupKeys ((alGet s a).getD []) := by
  cases h : alGet s a with
  | some tm => exact hwf.2 (a, tm) (alGet_mem h)
  | none => simp [NodupKeys]

theorem getList_deleteMessagesIn (s : StreamMap) (a : Int) (b : String)
    (ids : List Int) (c : Int) (d : String) :
    getList (deleteMessagesIn s a b ids) c d =
      if c = a ∧ d = b then
        (getList s a b).filter (fun id => ¬ ids.contains id)
      else getList s c d := by
  by_cases hc : c = a
  · by_cases hd : d = b
    · rw [if_pos ⟨hc, hd⟩]
      subst hc
      subst hd
      rw [getList_def2]
      simp only [deleteMessagesIn]
      rw [alGet_updateAndPrune, if_pos rfl]
      by_cases hnil : updateAndPrune ((alGet s c).getD []) [] d
          (fun perTopic =>
            (perTopic.getD []).filter (fun id => ¬ ids.contains id)) = []
      · rw [if_pos hnil]
        rcases updateAndPrune_eq_nil hnil with hz | hz
        · rw [getList_def2]
          simp only [Option.getD_none, alGet]
          exact hz.symm
        · rw [getList_def2, hz]
          simp [alGet]
      · rw [if_neg hnil]
        simp only [Option.getD_some]
        rw [alGet_updateAndPrune, if_pos rfl, getList_def2]
        by_cases hz : ((alGet ((alGet s c).getD []) d).getD []).filter
            (fun id => ¬ ids.contains id) = []
        · rw [if_pos hz, hz]
          simp
        · rw [if_neg hz]
          simp
    · rw [if_neg (fun h => hd h.2)]
      subst hc
      rw [getList_def2, getList_def2]
      simp only [deleteMessagesIn]
      rw [alGet_updateAndPrune, if_pos rfl]
      by_cases hnil : updateAndPrune ((alGet s c).getD []) [] b
          (fun perTopic =>
            (perTopic.getD []).filter (fun id => ¬ ids.contains id)) = []
      · rw [if_pos hnil, updateAndPrune_eq_nil_get_ne hnil hd]
        simp [alGet]
      · rw [if_neg hnil]
        simp only [Option.getD_some]
        rw [alGet_updateAndPrune, if_neg hd]
  · rw [if_neg (fun h => hc h.1), getList_def2, getList_def2]
    simp only [deleteMessagesIn]
    rw [alGet_updateAndPrune, if_neg hc]

theorem getList_deleteMessages {s : StreamMap} (hwf : WF s) (ids : List Int)
    (c : Int) (d : String) :
    getList (deleteMessages s ids) c d = deleteTopicFn ids (getList s c d) := by
  rw [getList_def2, getList_def2]
  simp only [deleteMessages]
  cases hs : alGet s c with
  | none =>
    rw [alGet_updateAllAndPrune_none hwf.1 hs]
    simp [alGet, deleteTopicFn_nil]
  | some tm =>
    have htm : NodupKeys tm := hwf.2 (c, tm) (alGet_mem hs)
    rw [alGet_updateAllAndPrune_some hwf.1 hs]
    simp only [Option.getD_some]
    by_cases hnil : updateAllAndPrune tm []
        (fun perTopic => deleteTopicFn ids perTopic) = []
    · rw [if_pos hnil]
      simp only [Option.getD_none]
      cases hd : alGet tm d with
      | none => simp [alGet, deleteTopicFn_nil]
      | some l =>
        have hdel := updateAllAndPrune_eq_nil hnil (d, l) (alGet_mem hd)
        simp only [Option.getD_some]
        simp [alGet, hdel]
    · rw [if_neg hnil]
      simp only [Option.getD_some]
      cases hd : alGet tm d with
      | none =>
        rw [alGet_updateAllAndPrune_none htm hd]
        simp [alGet, deleteTopicFn_nil]
      | some l =>
        rw [alGet_updateAllAndPrune_some htm hd]
        simp only [Option.getD_some]
        by_cases hz : deleteTopicFn ids l = []
        · rw [if_pos hz]
          simp [hz]
        · rw [if_neg hz]
          simp

end IndexLemmas

section StructureLemmas

theorem wf_nil : WF ([] : StreamMap) := by
  constructor
  · simp [NodupKeys]
  · simp

theorem wf_updateIn2 {s : StreamMap} (hwf : WF s) (a : Int) (b : String)
    (f : List Int → List Int) : WF (updateIn2 s a b f) := by
  constructor
  · exact nodupKeys_alSet hwf.1 _ _
  · intro p hp
    simp only [updateIn2] at hp
    rcases mem_alSet hp with h' | h'
    · rw [h']
      exact nodupKeys_alSet (nodupKeys_getD_alGet hwf a) _ _
    · exact hwf.2 p h'

theorem wf_deleteMessagesIn {s : StreamMap} (hwf : WF s) (a : Int) (b : String)
    (ids : List Int) : WF (deleteMessagesIn s a b ids) := by
  constructor
  · exact nodupKeys_updateAndPrune hwf.1 _ _ _
  · intro p hp
    simp only [deleteMessagesIn] at hp
    rcases mem_updateAndPrune hp with h' | h'
    · exact hwf.2 p h'
    · rw [h'.2.1]
      exact nodupKeys_updateAndPrune (nodupKeys_getD_alGet hwf a) _ _ _

theorem wf_deleteMessages {s : StreamMap} (hwf : WF s) (ids : List Int) :
    WF (deleteMessages s ids) := by
  constructor
  · exact nodupKeys_updateAllAndPrune hwf.1 _ _
  · intro p hp
    simp only [deleteMessages] at hp
    obtain ⟨v, hv, heq, _⟩ := mem_updateAllAndPrune hp
    rw [heq]
    exact nodupKeys_updateAllAndPrune (hwf.2 (p.1, v) hv) _ _

theorem wf_foldl_newly (md : List (Int × MessageDetail)) (msgs : List Int) :
    ∀ acc : StreamMap, WF acc →
      WF (msgs.foldl (fun acc id =>
        match alGet md id with
        | some message =>
          if message.type = "stream" then
            updateIn2 acc message.stream_id message.topic (fun l => l ++ [id])
          else acc
        | none => acc) acc) := by
  induction msgs with
  | nil =>
    intro acc h
    exact h
  | cons id rest ih =>
    intro acc h
    rw [List.foldl_cons]
    apply ih
    cases alGet md id with
    | some message =>
      by_cases ht : message.type = "stream"
      · simpa [ht] using wf_updateIn2 h message.stream_id message.topic _
      · simpa [ht] using h
    | none => exact h

theorem wf_newlyUnreadOf (md : List (Int × MessageDetail)) (messages : List Int) :
    WF (newlyUnreadOf md messages) :=
  wf_foldl_newly md messages [] wf_nil

theorem keys_mapValues {K A B : Type} (g : A → B) (m : List (K × A)) :
    (m.map (fun p => (p.1, g p.2))).map Prod.fst = m.map Prod.fst := by
  induction m with
  | nil => rfl
  | cons p rest ih => simp [ih]

theorem alGet_mapValues {K A B : Type} [DecidableEq K] (g : A → B)
    (m : List (K × A)) (k : K) :
    alGet (m.map (fun p => (p.1, g p.2))) k = (alGet m k).map g := by
  induction m with
  | nil => rfl
  | cons p rest ih =>
    by_cases hp : p.1 = k
    · simp [alGet, hp]
    · simp [alGet, hp, ih]

theorem wf_sortNewlyUnread {s : StreamMap} (hwf : WF s) :
    WF (sortNewlyUnread s) := by
  constructor
  · rw [NodupKeys]
    simp only [sortNewlyUnread]
    rw [keys_mapValues]
    exact hwf.1
  · intro p hp
    simp only [sortNewlyUnread] at hp
    obtain ⟨q, hq, rfl⟩ := List.mem_map.1 hp
    rw [NodupKeys]
    simp only
    rw [keys_mapValues]
    exact hwf.2 q hq

theorem getList_sortNewlyUnread (s : StreamMap) (sid : Int) (t : String) :
    getList (sortNewlyUnread s) sid t = sortList (getList s sid t) := by
  rw [getList_def2, getList_def2]
  simp only [sortNewlyUnread]
  rw [alGet_mapValues]
  cases hs : alGet s sid with
  | none => simp [alGet, sortList, List.insertionSort]
  | some tm =>
    simp only [Option.map_some', Option.getD_some]
    rw [alGet_mapValues]
    cases ht : alGet tm t with
    | none => simp [sortList, List.insertionSort]
    | some l => simp

theorem nodupKeys_alOfList {K V : Type} [DecidableEq K] (pairs : List (K × V)) :
    NodupKeys (alOfList pairs) := by
  have aux : ∀ (ps : List (K × V)) (acc : List (K × V)), NodupKeys acc →
      NodupKeys (ps.foldl (fun m kv => alSet m kv.1 kv.2) acc) := by
    intro ps
    induction ps with
    | nil =>
      intro acc h
      exact h
    | cons p rest ih =>
      intro acc h
      rw [List.foldl_cons]
      exact ih _ (nodupKeys_alSet h _ _)
  exact aux pairs [] (by simp [NodupKeys])

theorem mem_alOfList {K V : Type} [DecidableEq K] {pairs : List (K × V)}
    {q : K × V} (h : q ∈ alOfList pairs) : q ∈ pairs := by
  have aux : ∀ (ps : List (K × V)) (acc : List (K × V)),
      q ∈ ps.foldl (fun m kv => alSet m kv.1 kv.2) acc → q ∈ ps ∨ q ∈ acc := by
    intro ps
    induction ps with
    | nil =>
      intro acc h'
      exact Or.inr h'
    | cons p rest ih =>
      intro acc h'
      rw [List.foldl_cons] at h'
      rcases ih _ h' with h'' | h''
      · exact Or.inl (List.mem_cons_of_mem _ h'')
      · rcases mem_alSet h'' with h3 | h3
        · exact Or.inl (by simp [h3])
        · exact Or.inr h3
  rcases aux pairs [] h with h' | h'
  · exact h'
  · simp at h'

theorem alOfList_ne_nil {K V : Type} [DecidableEq K] {pairs : List (K × V)}
    (h : pairs ≠ []) : alOfList pairs ≠ [] := by
  have aux : ∀ (ps : List (K × V)) (acc : List (K × V)), (acc ≠ [] ∨ ps ≠ []) →
      ps.foldl (fun m kv => alSet m kv.1 kv.2) acc ≠ [] := by
    intro ps
    induction ps with
    | nil =>
      intro acc hor
      rcases hor with h' | h'
      · simpa using h'
      · simp at h'
    | cons p rest ih =>
      intro acc _
      rw [List.foldl_cons]
      exact ih _ (Or.inl (alSet_ne_nil _ _ _))
  exact aux pairs [] (Or.inr h)

end StructureLemmas

section RegisterLemmas

theorem nodupKeys_byStreamOf (data : List RegisterEntry) :
    NodupKeys (byStreamOf data) := by
  have aux : ∀ (rest : List RegisterEntry)
      (acc : List (Int × List (String × List Int))), NodupKeys acc →
      NodupKeys (rest.foldl (fun acc e =>
        match alGet acc e.stream_id with
        | some pairs =>
          alSet acc e.stream_id (pairs ++ [(e.topic, e.unread_message_ids)])
        | none => alSet acc e.stream_id [(e.topic, e.unread_message_ids)]) acc) := by
    intro rest
    induction rest with
    | nil =>
      intro acc h
      exact h
    | cons e rest ih =>
      intro acc h
      rw [List.foldl_cons]
      cases alGet acc e.stream_id with
      | some pairs => exact ih _ (nodupKeys_alSet h _ _)
      | none => exact ih _ (nodupKeys_alSet h _ _)
  exact aux data [] (by simp [NodupKeys])

theorem byStreamOf_entries {data : List RegisterEntry} :
    ∀ p ∈ byStreamOf data, p.2 ≠ [] ∧
      ∀ q ∈ p.2, ∃ e ∈ data, q = (e.topic, e.unread_message_ids) := by
  have aux : ∀ (rest : List RegisterEntry)
      (acc : List (Int × List (String × List Int))),
      (∀ e ∈ rest, e ∈ data) →
      (∀ p ∈ acc, p.2 ≠ [] ∧
        ∀ q ∈ p.2, ∃ e ∈ data, q = (e.topic, e.unread_message_ids)) →
      ∀ p ∈ rest.foldl (fun acc e =>
          match alGet acc e.stream_id with
          | some pairs =>
            alSet acc e.stream_id (pairs ++ [(e.topic, e.unread_message_ids)])
          | none => alSet acc e.stream_id [(e.topic, e.unread_message_ids)]) acc,
        p.2 ≠ [] ∧ ∀ q ∈ p.2, ∃ e ∈ data, q = (e.topic, e.unread_message_ids) := by
    intro rest
    induction rest with
    | nil =>
      intro acc _ hacc
      exact hacc
    | cons e rest ih =>
      intro acc hsub hacc
      rw [List.foldl_cons]
      have hedata : e ∈ data := hsub e (List.mem_cons_self _ _)
      refine ih _ (fun e' he' => hsub e' (List.mem_cons_of_mem _ he')) ?_
      cases hget : alGet acc e.stream_id with
      | some pairs =>
        intro p hp
        rcases mem_alSet hp with h' | h'
        · subst h'
          have hmem := hacc (e.stream_id, pairs) (alGet_mem hget)
          refine ⟨by simp, fun q hq => ?_⟩
          rcases List.mem_append.1 hq with hq' | hq'
          · exact hmem.2 q hq'
          · refine ⟨e, hedata, ?_⟩
            simpa using hq'
        · exact hacc p h'
      | none =>
        intro p hp
        rcases mem_alSet hp with h' | h'
        · subst h'
          refine ⟨by simp, fun q hq => ?_⟩
          refine ⟨e, hedata, ?_⟩
          simpa using hq
        · exact hacc p h'
  exact aux data [] (fun _ he => he) (by simp)

theorem registerStreamsState_entries {data : List RegisterEntry} :
    ∀ p ∈ registerStreamsState data, p.2 ≠ [] ∧
      ∀ q ∈ p.2, q.2 ≠ [] → True := by
  intro p hp
  exact ⟨by
    simp only [registerStreamsState] at hp
    obtain ⟨pb, hpb, rfl⟩ := List.mem_map.1 hp
    exact alOfList_ne_nil (byStreamOf_entries pb hpb).1, fun _ _ _ => trivial⟩

theorem registerStreamsState_values {data : List RegisterEntry} :
    ∀ p ∈ registerStreamsState data, p.2 ≠ [] ∧
      ∀ q ∈ p.2, ∃ e ∈ data, q.2 = e.unread_message_ids := by
  intro p hp
  simp only [registerStreamsState] at hp
  obtain ⟨pb, hpb, rfl⟩ := List.mem_map.1 hp
  have hb := byStreamOf_entries pb hpb
  refine ⟨alOfList_ne_nil hb.1, fun q hq => ?_⟩
  obtain ⟨e, he, heq⟩ := hb.2 q (mem_alOfList hq)
  exact ⟨e, he, by rw [heq]⟩

theorem wf_registerStreamsState (data : List RegisterEntry) :
    WF (registerStreamsState data) := by
  constructor
  · rw [NodupKeys]
    simp only [registerStreamsState]
    rw [keys_mapValues]
    exact nodupKeys_byStreamOf data
  · intro p hp
    simp only [registerStreamsState] at hp
    obtain ⟨pb, _, rfl⟩ := List.mem_map.1 hp
    exact nodupKeys_alOfList pb.2

end RegisterLemmas

section AllIdsLemmas

theorem mem_allIds_of_getList {s : StreamMap} {sid : Int} {t : String} {id : Int}
    (h : id ∈ getList s sid t) : id ∈ allIds s := by
  rw [getList_def2] at h
  cases hs : alGet s sid with
  | none =>
    rw [hs] at h
    simp [alGet] at h
  | some tm =>
    rw [hs] at h
    simp only [Option.getD_some] at h
    cases ht : alGet tm t with
    | none =>
      rw [ht] at h
      simp at h
    | some l =>
      rw [ht] at h
      simp only [Option.getD_some] at h
      have h1 : (sid, tm) ∈ s := alGet_mem hs
      have h2 : (t, l) ∈ tm := alGet_mem ht
      simp only [allIds]
      rw [List.mem_flatten]
      refine ⟨(tm.map Prod.snd).flatten, List.mem_map.2 ⟨(sid, tm), h1, rfl⟩, ?_⟩
      rw [List.mem_flatten]
      exact ⟨l, List.mem_map.2 ⟨(t, l), h2, rfl⟩, h⟩

theorem getList_eq_of_mem {s : StreamMap} (hwf : WF s) {sid : Int}
    {tm : List (String × List Int)} {t : String} {l : List Int}
    (h1 : (sid, tm) ∈ s) (h2 : (t, l) ∈ tm) : getList s sid t = l := by
  rw [getList_def2, mem_alGet hwf.1 h1]
  simp only [Option.getD_some]
  rw [mem_alGet (hwf.2 _ h1) h2]
  rfl

end AllIdsLemmas

/-- Whether `message_details` routes message `id` to the stream location
(`sid`, `t`) (unreadModel.js lines 302–314): the id has an entry of type
"stream" with that stream id and topic. -/
def routesTo (md : List (Int × MessageDetail)) (sid : Int) (t : String)
    (id : Int) : Bool :=
  match alGet md id with
  | some m => decide (m.type = "stream" ∧ m.stream_id = sid ∧ m.topic = t)
  | none => false

section NewlyUnreadLemmas

theorem getList_newly_foldl (md : List (Int × MessageDetail)) (msgs : List Int)
    (sid : Int) (t : String) :
    ∀ acc : StreamMap,
      getList (msgs.foldl (fun acc id =>
        match alGet md id with
        | some message =>
          if message.type = "stream" then
            updateIn2 acc message.stream_id message.topic (fun l => l ++ [id])
          else acc
        | none => acc) acc) sid t
      = getList acc sid t ++ msgs.filter (routesTo md sid t) := by
  induction msgs with
  | nil =>
    intro acc
    simp
  | cons id rest ih =>
    intro acc
    rw [List.foldl_cons, List.filter_cons]
    cases hmd : alGet md id with
    | none =>
      have hr : routesTo md sid t id = false := by simp [routesTo, hmd]
      simp only [hr, Bool.false_eq_true, if_false]
      exact ih acc
    | some message =>
      simp only []
      by_cases ht : message.type = "stream"
      · by_cases hloc : message.stream_id = sid ∧ message.topic = t
        · have hr : routesTo md sid t id = true := by
            simp [routesTo, hmd, ht, hloc.1, hloc.2]
          rw [if_pos ht, ih, getList_updateIn2,
            if_pos ⟨hloc.1.symm, hloc.2.symm⟩, hloc.1, hloc.2]
          simp [hr, List.append_assoc]
        · have hr : routesTo md sid t id = false := by
            simp only [routesTo, hmd, decide_eq_false_iff_not]
            tauto
          rw [if_pos ht, ih, getList_updateIn2,
            if_neg (fun hcon => hloc ⟨hcon.1.symm, hcon.2.symm⟩)]
          simp [hr]
      · have hr : routesTo md sid t id = false := by simp [routesTo, hmd, ht]
        rw [if_neg ht, ih]
        simp [hr]

theorem getList_newlyUnreadOf (md : List (Int × MessageDetail))
    (messages : List Int) (sid : Int) (t : String) :
    getList (newlyUnreadOf md messages) sid t
      = messages.filter (routesTo md sid t) := by
  have h := getList_newly_foldl md messages sid t []
  simpa [newlyUnreadOf, getList, alGet] using h

theorem alGet_alMergeWith_some {K V : Type} [DecidableEq K] [DecidableEq V] {f : V → V → V}
    {other : List (K × V)} (ho : NodupKeys other) {m : List (K × V)} {k : K}
    {v : V} (hv : alGet other k = some v) :
    alGet (alMergeWith f m other) k =
      some (match alGet m k with | some old => f old v | none => v) := by
  rw [alGet_alMergeWith ho, hv]

theorem alGet_alMergeWith_none {K V : Type} [DecidableEq K] [DecidableEq V] {f : V → V → V}
    {other : List (K × V)} (ho : NodupKeys other) {m : List (K × V)} {k : K}
    (hv : alGet other k = none) :
    alGet (alMergeWith f m other) k = alGet m k := by
  rw [alGet_alMergeWith ho, hv]

theorem alGet_alMergeWith_both {K V : Type} [DecidableEq K] [DecidableEq V] {f : V → V → V}
    {other : List (K × V)} (ho : NodupKeys other) {m : List (K × V)} {k : K}
    {v old : V} (hv : alGet other k = some v) (hm : alGet m k = some old) :
    alGet (alMergeWith f m other) k = some (f old v) := by
  rw [alGet_alMergeWith_some ho hv, hm]

theorem alGet_alMergeWith_new {K V : Type} [DecidableEq K] [DecidableEq V] {f : V → V → V}
    {other : List (K × V)} (ho : NodupKeys other) {m : List (K × V)} {k : K}
    {v : V} (hv : alGet other k = some v) (hm : alGet m k = none) :
    alGet (alMergeWith f m other) k = some v := by
  rw [alGet_alMergeWith_some ho hv, hm]

theorem getList_mergeUnread {s newly : StreamMap} (hn : WF newly) (sid : Int)
    (t : String) :
    getList (alMergeWith (fun oldTopicsMap newTopicsMap =>
        alMergeWith (fun oldUnread newUnread => setUnion oldUnread newUnread)
          oldTopicsMap newTopicsMap) s newly) sid t
      = setUnion (getList s sid t) (getList newly sid t) := by
  cases hnew : alGet newly sid with
  | none =>
    rw [getList_def2, getList_def2, getList_def2,
      alGet_alMergeWith_none hn.1 hnew, hnew]
    simp [alGet, setUnion_nil_right]
  | some ntm =>
    cases hold : alGet s sid with
    | none =>
      rw [getList_def2, getList_def2, getList_def2,
        alGet_alMergeWith_new hn.1 hnew hold, hnew, hold]
      simp [alGet, setUnion_nil_left]
    | some otm =>
      rw [getList_def2, getList_def2, getList_def2,
        alGet_alMergeWith_both hn.1 hnew hold, hnew, hold]
      simp only [Option.getD_some]
      have hntm : NodupKeys ntm := hn.2 (sid, ntm) (alGet_mem hnew)
      cases hnt : alGet ntm t with
      | none =>
        rw [alGet_alMergeWith_none hntm hnt]
        simp [setUnion_nil_right]
      | some nl =>
        cases hot : alGet otm t with
        | none =>
          rw [alGet_alMergeWith_new hntm hnt hot]
          simp [setUnion_nil_left]
        | some ol =>
          rw [alGet_alMergeWith_both hntm hnt hot]
          simp

end NewlyUnreadLemmas

section ShapeLemma

/-- Every ok-result of the streams reducer has one of seven shapes: the
unchanged state, the empty state, a registration rebuild, a new-message
append, a bulk delete, a newly-unread merge, or a move. -/
theorem streamsReducer_shape {s : StreamMap} {a : UAction} {s' : StreamMap}
    {w : List String} (h : streamsReducer s a = Except.ok (s', w)) :
    s' = s ∨ s' = initialStreamsState
    ∨ (∃ data, a = UAction.registerComplete data ∧
        s' = registerStreamsState (data.getD []))
    ∨ (∃ message : NewMessagePayload, a = UAction.eventNewMessage message ∧
        message.type = "stream" ∧
        s' = updateIn2 s message.stream_id message.subject
          (fun perTopic => perTopic ++ [message.id]))
    ∨ (∃ ids, s' = deleteMessages s ids)
    ∨ (∃ md messages,
        a = UAction.eventUpdateMessageFlags ("read") ("remove") false messages
          (some md) ∧
        s' = alMergeWith (fun oldTopicsMap newTopicsMap =>
            alMergeWith (fun oldUnread newUnread => setUnion oldUnread newUnread)
              oldTopicsMap newTopicsMap) s
          (sortNewlyUnread (newlyUnreadOf md messages)))
    ∨ (∃ (mv : MoveInfo) (ids : List Int),
        a = UAction.eventUpdateMessage ids (some mv) ∧
        (getList s mv.orig_stream_id mv.orig_topic).filter
          (fun id => ids.contains id) ≠ [] ∧
        s' = updateIn2 (deleteMessagesIn s mv.orig_stream_id mv.orig_topic ids)
          mv.new_stream_id mv.new_topic
          (fun msgs => sortList (msgs ++
            (getList s mv.orig_stream_id mv.orig_topic).filter
              (fun id => ids.contains id)))) := by
  cases a with
  | resetAccountData =>
    simp only [streamsReducer, Except.ok.injEq, Prod.mk.injEq] at h
    exact Or.inr (Or.inl h.1.symm)
  | registerComplete data =>
    simp only [streamsReducer, Except.ok.injEq, Prod.mk.injEq] at h
    exact Or.inr (Or.inr (Or.inl ⟨data, rfl, h.1.symm⟩))
  | messageFetchComplete =>
    simp only [streamsReducer, Except.ok.injEq, Prod.mk.injEq] at h
    exact Or.inl h.1.symm
  | eventNewMessage message =>
    simp only [streamsReducer] at h
    by_cases htype : message.type ≠ "stream"
    · rw [if_pos htype] at h
      simp only [Except.ok.injEq, Prod.mk.injEq] at h
      exact Or.inl h.1.symm
    · rw [if_neg htype] at h
      cases hf : message.flags with
      | none =>
        rw [hf] at h
        simp at h
      | some flags =>
        rw [hf] at h
        simp only [] at h
        by_cases hread : flags.contains ("read")
        · rw [if_pos hread] at h
          simp only [Except.ok.injEq, Prod.mk.injEq] at h
          exact Or.inl h.1.symm
        · rw [if_neg hread] at h
          simp only [Except.ok.injEq, Prod.mk.injEq] at h
          exact Or.inr (Or.inr (Or.inr (Or.inl
            ⟨message, rfl, not_not.1 htype, h.1.symm⟩)))
  | eventMessageDelete ids =>
    simp only [streamsReducer, Except.ok.injEq, Prod.mk.injEq] at h
    exact Or.inr (Or.inr (Or.inr (Or.inr (Or.inl ⟨ids, h.1.symm⟩))))
  | eventUpdateMessageFlags flag op all messages md =>
    simp only [streamsReducer] at h
    by_cases hflag : flag ≠ "read"
    · rw [if_pos hflag] at h
      simp only [Except.ok.injEq, Prod.mk.injEq] at h
      exact Or.inl h.1.symm
    · rw [if_neg hflag] at h
      have hfr : flag = "read" := not_not.1 hflag
      by_cases hall : all = true
      · rw [if_pos hall] at h
        simp only [Except.ok.injEq, Prod.mk.injEq] at h
        exact Or.inr (Or.inl h.1.symm)
      · rw [if_neg hall] at h
        by_cases hop : op = "remove"
        · rw [if_pos hop] at h
          cases hmd : md with
          | none =>
            rw [hmd] at h
            simp only [Except.ok.injEq, Prod.mk.injEq] at h
            exact Or.inl h.1.symm
          | some details =>
            rw [hmd] at h
            simp only [Except.ok.injEq, Prod.mk.injEq] at h
            subst hfr
            subst hop
            have hallf : all = false := by
              cases all
              · rfl
              · exact absurd rfl hall
            subst hallf
            exact Or.inr (Or.inr (Or.inr (Or.inr (Or.inr (Or.inl
              ⟨details, messages, rfl, h.1.symm⟩)))))
        · rw [if_neg hop] at h
          simp only [Except.ok.injEq, Prod.mk.injEq] at h
          exact Or.inr (Or.inr (Or.inr (Or.inr (Or.inl
            ⟨messages, h.1.symm⟩))))
  | eventUpdateMessage ids move =>
    simp only [streamsReducer] at h
    cases hmv : move with
    | none =>
      rw [hmv] at h
      simp only [Except.ok.injEq, Prod.mk.injEq] at h
      exact Or.inl h.1.symm
    | some mv =>
      rw [hmv] at h
      simp only [] at h
      by_cases hm : ((getList s mv.orig_stream_id mv.orig_topic).filter
          (fun id => ids.contains id)).isEmpty = true
      · rw [if_pos hm] at h
        simp only [Except.ok.injEq, Prod.mk.injEq] at h
        exact Or.inl h.1.symm
      · rw [if_neg hm] at h
        simp only [Except.ok.injEq, Prod.mk.injEq] at h
        refine Or.inr (Or.inr (Or.inr (Or.inr (Or.inr (Or.inr
          ⟨mv, ids, rfl, ?_, h.1.symm⟩)))))
        intro hniz
        exact hm (by rw [hniz]; rfl)
  | other =>
    simp only [streamsReducer, Except.ok.injEq, Prod.mk.injEq] at h
    exact Or.inl h.1.symm

end ShapeLemma

section StepLemmas

theorem wf_mergeUnread {s newly : StreamMap} (hs : WF s) (hn : WF newly) :
    WF (alMergeWith (fun oldTopicsMap newTopicsMap =>
      alMergeWith (fun oldUnread newUnread => setUnion oldUnread newUnread)
        oldTopicsMap newTopicsMap) s newly) := by
  constructor
  · exact nodupKeys_alMergeWith hs.1
  · intro p hp
    rcases mem_alMergeWith hn.1 hp with h' | ⟨q, hq, _, hcase⟩
    · exact hs.2 p h'
    · rcases hcase with ⟨_, hval⟩ | ⟨old, hold, hval⟩
      · rw [hval]
        exact hn.2 q hq
      · rw [hval]
        exact nodupKeys_alMergeWith (hs.2 (q.1, old) (alGet_mem hold))

theorem wf_step {s : StreamMap} {a : UAction} {s' : StreamMap} {w : List String}
    (hwf : WF s) (h : streamsReducer s a = Except.ok (s', w)) : WF s' := by
  rcases streamsReducer_shape h with h1 | h1 | ⟨data, _, h1⟩ | ⟨msg, _, _, h1⟩
    | ⟨ids, h1⟩ | ⟨md, messages, _, h1⟩ | ⟨mv, ids, _, _, h1⟩
  · exact h1 ▸ hwf
  · rw [h1]
    exact wf_nil
  · rw [h1]
    exact wf_registerStreamsState _
  · rw [h1]
    exact wf_updateIn2 hwf _ _ _
  · rw [h1]
    exact wf_deleteMessages hwf _
  · rw [h1]
    exact wf_mergeUnread hwf (wf_sortNewlyUnread (wf_newlyUnreadOf md messages))
  · rw [h1]
    exact wf_updateIn2 (wf_deleteMessagesIn hwf _ _ _) _ _ _

theorem wf_reach {P : StreamMap → UAction → Prop} {s : StreamMap}
    (h : Reach P s) : WF s := by
  induction h with
  | init => exact wf_nil
  | step _ _ hred ih => exact wf_step ih hred

theorem pairwise_deleteTopicFn (ids l : List Int)
    (h : List.Pairwise (· < ·) l) :
    List.Pairwise (· < ·) (deleteTopicFn ids l) := by
  unfold deleteTopicFn
  cases l.find? (fun id => ids.contains id) with
  | none => exact h
  | some v =>
    simp only []
    by_cases hv : v = 0
    · rw [if_pos hv]
      exact h
    · rw [if_neg hv]
      exact h.filter _

theorem mem_of_contains {l : List Int} {x : Int} (h : l.contains x = true) :
    x ∈ l := by
  simpa using h

theorem sorted_step {s : StreamMap} {a : UAction} {s' : StreamMap}
    {w : List String} (hwf : WF s) (hsort : SortedIndex s)
    (hpre : PreSorted s a) (h : streamsReducer s a = Except.ok (s', w)) :
    SortedIndex s' := by
  rcases streamsReducer_shape h with h1 | h1 | ⟨data, ha, h1⟩ | ⟨msg, ha, htype, h1⟩
    | ⟨ids, h1⟩ | ⟨md, messages, ha, h1⟩ | ⟨mv, ids, ha, hne, h1⟩
  · exact h1 ▸ hsort
  · intro sid t
    rw [h1]
    simp [initialStreamsState, getList, alGet]
  · subst ha
    have hpre' : ∀ e ∈ data.getD [], List.Pairwise (· < ·) e.unread_message_ids :=
      hpre
    intro sid t
    rw [h1, getList_def2]
    cases hg : alGet (registerStreamsState (data.getD [])) sid with
    | none => simp [alGet]
    | some tm =>
      simp only [Option.getD_some]
      cases ht : alGet tm t with
      | none => simp
      | some l =>
        simp only [Option.getD_some]
        obtain ⟨e, he, heq⟩ :=
          (registerStreamsState_values _ (alGet_mem hg)).2 (t, l) (alGet_mem ht)
        have hl : l = e.unread_message_ids := heq
        rw [hl]
        exact hpre' e he
  · subst ha
    have hid : ∀ i ∈ allIds s, i < msg.id := hpre htype
    intro sid t
    rw [h1, getList_updateIn2]
    by_cases hc : sid = msg.stream_id ∧ t = msg.subject
    · rw [if_pos hc]
      apply List.pairwise_append.2
      refine ⟨hsort _ _, List.pairwise_singleton _ _, ?_⟩
      intro x hx y hy
      rw [List.mem_singleton] at hy
      subst hy
      exact hid x (mem_allIds_of_getList hx)
    · rw [if_neg hc]
      exact hsort _ _
  · intro sid t
    rw [h1, getList_deleteMessages hwf]
    exact pairwise_deleteTopicFn ids _ (hsort sid t)
  · subst ha
    have hnodup : messages.Nodup := (hpre ⟨rfl, rfl, rfl⟩).1
    intro sid t
    rw [h1, getList_mergeUnread (wf_sortNewlyUnread (wf_newlyUnreadOf md messages)),
      getList_sortNewlyUnread, getList_newlyUnreadOf]
    exact pairwise_setUnion _ _ (hsort sid t)
      (sortList_pairwise_lt (hnodup.filter _))
  · subst ha
    intro sid t
    rw [h1, getList_updateIn2]
    by_cases hc : sid = mv.new_stream_id ∧ t = mv.new_topic
    · rw [if_pos hc]
      apply sortList_pairwise_lt
      rw [getList_deleteMessagesIn]
      by_cases horig : mv.new_stream_id = mv.orig_stream_id ∧
          mv.new_topic = mv.orig_topic
      · rw [if_pos horig]
        apply List.Nodup.append
        · exact (nodup_of_pairwise_lt (hsort _ _)).filter _
        · exact (nodup_of_pairwise_lt (hsort _ _)).filter _
        · intro x hx1 hx2
          rw [List.mem_filter] at hx1 hx2
          simp only [decide_eq_true_eq] at hx1
          exact hx1.2 hx2.2
      · rw [if_neg horig]
        apply List.Nodup.append
        · exact nodup_of_pairwise_lt (hsort _ _)
        · exact (nodup_of_pairwise_lt (hsort _ _)).filter _
        · intro x hx1 hx2
          rw [List.mem_filter] at hx2
          have hxids : x ∈ ids := mem_of_contains hx2.2
          have hprod : (mv.orig_stream_id, mv.orig_topic) ≠
              (mv.new_stream_id, mv.new_topic) := by
            intro hcon
            rw [Prod.mk.injEq] at hcon
            exact horig ⟨hcon.1.symm, hcon.2.symm⟩
          exact hpre mv rfl hprod x hxids hx2.1 hx1
    · rw [if_neg hc]
      rw [getList_deleteMessagesIn]
      by_cases hco : sid = mv.orig_stream_id ∧ t = mv.orig_topic
      · rw [if_pos hco]
        exact (hsort _ _).filter _
      · rw [if_neg hco]
        exact hsort _ _

end StepLemmas

section NoEmptyLemmas

theorem noempty_nil : NoEmpty ([] : StreamMap) := by
  intro p hp
  simp at hp

theorem noempty_updateIn2 {s : StreamMap} (hne : NoEmpty s) (a : Int)
    (b : String) {f : List Int → List Int} (hf : ∀ l, f l ≠ []) :
    NoEmpty (updateIn2 s a b f) := by
  intro p hp
  simp only [updateIn2] at hp
  rcases mem_alSet hp with h' | h'
  · subst h'
    refine ⟨alSet_ne_nil _ _ _, fun q hq => ?_⟩
    rcases mem_alSet hq with h'' | h''
    · subst h''
      exact hf _
    · cases hs : alGet s a with
      | some tm =>
        rw [hs] at h''
        exact (hne (a, tm) (alGet_mem hs)).2 q h''
      | none =>
        rw [hs] at h''
        simp at h''
  · exact hne p h'

theorem noempty_deleteMessagesIn {s : StreamMap} (hne : NoEmpty s) (a : Int)
    (b : String) (ids : List Int) : NoEmpty (deleteMessagesIn s a b ids) := by
  intro p hp
  simp only [deleteMessagesIn] at hp
  rcases mem_updateAndPrune hp with h' | ⟨_, hval, hnz⟩
  · exact hne p h'
  · refine ⟨hnz, fun q hq => ?_⟩
    rw [hval] at hq
    rcases mem_updateAndPrune hq with h'' | ⟨_, _, hnz2⟩
    · cases hs : alGet s a with
      | some tm =>
        rw [hs] at h''
        exact (hne (a, tm) (alGet_mem hs)).2 q h''
      | none =>
        rw [hs] at h''
        simp at h''
    · exact hnz2

theorem noempty_deleteMessages {s : StreamMap}
    (ids : List Int) : NoEmpty (deleteMessages s ids) := by
  intro p hp
  simp only [deleteMessages] at hp
  obtain ⟨v, _, heq, hneq⟩ := mem_updateAllAndPrune hp
  refine ⟨heq ▸ hneq, fun q hq => ?_⟩
  rw [heq] at hq
  obtain ⟨l, _, heq2, hneq2⟩ := mem_updateAllAndPrune hq
  exact heq2 ▸ hneq2

theorem noempty_newlyUnreadOf (md : List (Int × MessageDetail))
    (messages : List Int) : NoEmpty (newlyUnreadOf md messages) := by
  have aux : ∀ (msgs : List Int) (acc : StreamMap), NoEmpty acc →
      NoEmpty (msgs.foldl (fun acc id =>
        match alGet md id with
        | some message =>
          if message.type = "stream" then
            updateIn2 acc message.stream_id message.topic (fun l => l ++ [id])
          else acc
        | none => acc) acc) := by
    intro msgs
    induction msgs with
    | nil =>
      intro acc h
      exact h
    | cons id rest ih =>
      intro acc h
      rw [List.foldl_cons]
      apply ih
      cases alGet md id with
      | some message =>
        by_cases ht : message.type = "stream"
        · simpa [ht] using noempty_updateIn2 h message.stream_id message.topic
            (fun l => by simp)
        · simpa [ht] using h
      | none => exact h
  exact aux messages [] noempty_nil

theorem noempty_sortNewlyUnread {s : StreamMap} (hne : NoEmpty s) :
    NoEmpty (sortNewlyUnread s) := by
  intro p hp
  simp only [sortNewlyUnread] at hp
  obtain ⟨q, hq, rfl⟩ := List.mem_map.1 hp
  have h := hne q hq
  constructor
  · simpa using h.1
  · intro r hr
    simp only at hr
    obtain ⟨r0, hr0, rfl⟩ := List.mem_map.1 hr
    exact sortList_ne_nil (h.2 r0 hr0)

theorem noempty_mergeUnread {s newly : StreamMap} (hs : NoEmpty s)
    (hn : NoEmpty newly) (hnwf : WF newly) :
    NoEmpty (alMergeWith (fun oldTopicsMap newTopicsMap =>
      alMergeWith (fun oldUnread newUnread => setUnion oldUnread newUnread)
        oldTopicsMap newTopicsMap) s newly) := by
  intro p hp
  rcases mem_alMergeWith hnwf.1 hp with h' | ⟨q, hq, _, hcase⟩
  · exact hs p h'
  · rcases hcase with ⟨_, hval⟩ | ⟨old, hold, hval⟩
    · rw [hval]
      exact hn q hq
    · rw [hval]
      have hqn := hn q hq
      have holdn := hs (q.1, old) (alGet_mem hold)
      refine ⟨alMergeWith_ne_nil (Or.inl holdn.1), fun r hr => ?_⟩
      have hq2wf : NodupKeys q.2 := hnwf.2 q hq
      rcases mem_alMergeWith hq2wf hr with h'' | ⟨r0, hr0, _, hcase2⟩
      · exact holdn.2 r h''
      · rcases hcase2 with ⟨_, hval2⟩ | ⟨old2, _, hval2⟩
        · rw [hval2]
          exact hqn.2 r0 hr0
        · rw [hval2]
          exact setUnion_ne_nil (Or.inr (hqn.2 r0 hr0))

theorem noempty_step {s : StreamMap} {a : UAction} {s' : StreamMap}
    {w : List String} (hne : NoEmpty s) (hpre : PreNonempty s a)
    (h : streamsReducer s a = Except.ok (s', w)) : NoEmpty s' := by
  rcases streamsReducer_shape h with h1 | h1 | ⟨data, ha, h1⟩ | ⟨msg, ha, htype, h1⟩
    | ⟨ids, h1⟩ | ⟨md, messages, ha, h1⟩ | ⟨mv, ids, ha, hniz, h1⟩
  · exact h1 ▸ hne
  · rw [h1]
    exact noempty_nil
  · subst ha
    rw [h1]
    intro p hp
    have hvals := registerStreamsState_values _ hp
    refine ⟨hvals.1, fun q hq => ?_⟩
    obtain ⟨e, he, heq⟩ := hvals.2 q hq
    rw [heq]
    exact hpre e he
  · rw [h1]
    exact noempty_updateIn2 hne _ _ (fun l => by simp)
  · rw [h1]
    exact noempty_deleteMessages ids
  · rw [h1]
    exact noempty_mergeUnread hne
      (noempty_sortNewlyUnread (noempty_newlyUnreadOf md messages))
      (wf_sortNewlyUnread (wf_newlyUnreadOf md messages))
  · rw [h1]
    refine noempty_updateIn2 (noempty_deleteMessagesIn hne _ _ _) _ _
      (fun l => sortList_ne_nil (fun hcon => ?_))
    exact hniz (List.append_eq_nil.1 hcon).2

end NoEmptyLemmas

section ClaimTheorems

theorem sorted_reach {s : StreamMap} (h : Reach PreSorted s) :
    WF s ∧ SortedIndex s := by
  induction h with
  | init =>
    refine ⟨wf_nil, fun sid t => ?_⟩
    simp [initialStreamsState, getList, alGet]
  | step _ hp hred ih => exact ⟨wf_step ih.1 hred, sorted_step ih.1 ih.2 hp hred⟩

/-- C1 (amended): starting from the empty stream index, applying any sequence
of ok-steps whose actions satisfy the stated preconditions strengthened by
(a) read-removal events list each message id at most once, and (b) a move
event between distinct locations never moves an id that is already present in
the destination list, every (streamId, topic) entry's ID list is strictly
ascending and duplicate-free. -/
theorem c1_sortedness_invariant {s : StreamMap} (h : Reach PreSorted s) :
    ∀ p ∈ s, ∀ q ∈ p.2, List.Pairwise (· < ·) q.2 ∧ q.2.Nodup := by
  obtain ⟨hwf, hsort⟩ := sorted_reach h
  intro p hp q hq
  have hgl : getList s p.1 q.1 = q.2 := getList_eq_of_mem hwf hp hq
  exact ⟨hgl ▸ hsort p.1 q.1, hgl ▸ nodup_of_pairwise_lt (hsort p.1 q.1)⟩

theorem c1_sortedness_invariant_witness :
    List.Pairwise (· < ·) ([5, 9] : List Int) ∧ ([5, 9] : List Int).Nodup :=
  c1_sortedness_invariant
    (@Reach.step PreSorted initialStreamsState
      (UAction.registerComplete (some [⟨1, "a", [5, 9]⟩]))
      [(1, [("a", [5, 9])])] [] Reach.init
      (by simp only [PreSorted]; decide) rfl)
    (1, [("a", [5, 9])]) (by decide) ("a", [5, 9]) (by decide)

/-- C1 as stated is false: from the empty index, a registration snapshot with
the strictly ascending lists [7] at (1, "a") and [7] at (2, "b"), followed by
a move of message 7 from (1, "a") to (2, "b") — both actions satisfying their
stated preconditions — produces the list [7, 7] at (2, "b"), which is not
strictly ascending and not duplicate-free. -/
theorem c1_sortedness_counterexample :
    Reach PreStated [(2, [("b", [7, 7])])] ∧
      ¬ (∀ p ∈ ([(2, [("b", [7, 7])])] : StreamMap), ∀ q ∈ p.2,
          List.Pairwise (· < ·) q.2 ∧ q.2.Nodup) := by
  constructor
  · exact @Reach.step PreStated [(1, [("a", [7])]), (2, [("b", [7])])]
      (UAction.eventUpdateMessage [7] (some ⟨1, "a", 2, "b"⟩))
      [(2, [("b", [7, 7])])] []
      (@Reach.step PreStated initialStreamsState
        (UAction.registerComplete (some [⟨1, "a", [7]⟩, ⟨2, "b", [7]⟩]))
        [(1, [("a", [7])]), (2, [("b", [7])])] []
        Reach.init (by simp only [PreStated]; decide) rfl)
      trivial rfl
  · decide

/-- C2: for strictly ascending duplicate-free integer lists A and B,
`setUnion A B` is strictly ascending and duplicate-free, its elements are
exactly the union of A's and B's, `setUnion A A = A`, `setUnion A [] = A`,
and `setUnion` is commutative in resulting element set. -/
theorem c2_setUnion_correct (A B : List Int)
    (hA : List.Pairwise (· < ·) A) (hB : List.Pairwise (· < ·) B) :
    List.Pairwise (· < ·) (setUnion A B) ∧ (setUnion A B).Nodup ∧
    (∀ z : Int, z ∈ setUnion A B ↔ z ∈ A ∨ z ∈ B) ∧
    setUnion A A = A ∧ setUnion A [] = A ∧
    (∀ z : Int, z ∈ setUnion A B ↔ z ∈ setUnion B A) := by
  refine ⟨pairwise_setUnion A B hA hB,
    nodup_of_pairwise_lt (pairwise_setUnion A B hA hB),
    fun z => mem_setUnion z A B, setUnion_self A, setUnion_nil_right A,
    fun z => ?_⟩
  rw [mem_setUnion, mem_setUnion]
  tauto

theorem c2_setUnion_correct_witness :
    List.Pairwise (· < ·) (setUnion [1, 3] [2, 3]) ∧
    (setUnion [1, 3] [2, 3]).Nodup ∧
    (∀ z : Int, z ∈ setUnion [1, 3] [2, 3] ↔ z ∈ [1, 3] ∨ z ∈ [2, 3]) ∧
    setUnion [1, 3] [1, 3] = [1, 3] ∧ setUnion [1, 3] [] = [1, 3] ∧
    (∀ z : Int, z ∈ setUnion [1, 3] [2, 3] ↔ z ∈ setUnion [2, 3] [1, 3]) :=
  c2_setUnion_correct [1, 3] [2, 3] (by decide) (by decide)

theorem c3_no_empty_branch_aux {s : StreamMap} (h : Reach PreNonempty s) :
    NoEmpty s := by
  induction h with
  | init => exact noempty_nil
  | step _ hp hred ih => exact noempty_step ih hp hred

/-- C3 (amended): starting from the empty stream index, applying any sequence
of ok-steps whose registration snapshots carry only nonempty
`unread_message_ids` lists, no stream entry maps to an empty topic map and no
topic entry maps to an empty ID list. -/
theorem c3_no_empty_branch {s : StreamMap} (h : Reach PreNonempty s) :
    ∀ p ∈ s, p.2 ≠ [] ∧ ∀ q ∈ p.2, q.2 ≠ [] :=
  c3_no_empty_branch_aux h

theorem c3_no_empty_branch_witness :
    ([("a", [5, 9])] : List (String × List Int)) ≠ [] ∧
      ∀ q ∈ ([("a", [5, 9])] : List (String × List Int)), q.2 ≠ [] :=
  c3_no_empty_branch
    (@Reach.step PreNonempty initialStreamsState
      (UAction.registerComplete (some [⟨1, "a", [5, 9]⟩]))
      [(1, [("a", [5, 9])])] [] Reach.init
      (by simp only [PreNonempty]; decide) rfl)
    (1, [("a", [5, 9])]) (by decide)

/-- C3 as stated is false: a registration snapshot whose single triple carries
the empty `unread_message_ids` list produces a state in which topic "a" of
stream 1 maps to the empty ID list — the empty branch is represented, not
pruned. -/
theorem c3_no_empty_counterexample :
    Reach PreStated [(1, [("a", ([] : List Int))])] ∧
      ¬ NoEmpty [(1, [("a", ([] : List Int))])] := by
  constructor
  · exact @Reach.step PreStated initialStreamsState
      (UAction.registerComplete (some [⟨1, "a", []⟩]))
      [(1, [("a", [])])] [] Reach.init
      (by simp only [PreStated]; decide) rfl
  · intro hcon
    exact (hcon (1, [("a", [])]) (by simp)).2 ("a", []) (by simp) rfl

/-- C4: `updateAndPrune` deletes the key when the updater yields the zero
value, returns the map unchanged when the updater returns the looked-up
value, otherwise sets the key to the new value; and the result never holds a
value equal to zero at the key. -/
theorem c4_updateAndPrune_spec {K V : Type} [DecidableEq K] [DecidableEq V]
    (m : List (K × V)) (zero : V) (k : K) (f : Option V → V) :
    (f (alGet m k) = zero → updateAndPrune m zero k f = alDelete m k) ∧
    (f (alGet m k) ≠ zero → alGet m k = some (f (alGet m k)) →
      updateAndPrune m zero k f = m) ∧
    (f (alGet m k) ≠ zero → alGet m k ≠ some (f (alGet m k)) →
      updateAndPrune m zero k f = alSet m k (f (alGet m k))) ∧
    alGet (updateAndPrune m zero k f) k ≠ some zero := by
  refine ⟨fun hz => ?_, fun hz hv => ?_, fun hz hv => ?_, ?_⟩
  · simp only [updateAndPrune]
    rw [if_pos hz]
  · simp only [updateAndPrune]
    rw [if_neg hz, if_pos hv]
  · simp only [updateAndPrune]
    rw [if_neg hz, if_neg hv]
  · rw [alGet_updateAndPrune, if_pos rfl]
    by_cases hz : f (alGet m k) = zero
    · rw [if_pos hz]
      simp
    · rw [if_neg hz]
      intro hcon
      exact hz (Option.some.inj hcon)

theorem c4_updateAndPrune_spec_witness :
    updateAndPrune [((1 : Int), (2 : Int))] 0 1 (fun _ => 0) =
      alDelete [((1 : Int), (2 : Int))] 1 ∧
    updateAndPrune [((1 : Int), (2 : Int))] 0 1 (fun _ => 3) =
      alSet [((1 : Int), (2 : Int))] 1 3 ∧
    alGet (updateAndPrune [((1 : Int), (2 : Int))] 0 1 (fun _ => 0)) 1 ≠
      some 0 :=
  ⟨(c4_updateAndPrune_spec [((1 : Int), (2 : Int))] 0 1 (fun _ => 0)).1 rfl,
   (c4_updateAndPrune_spec [((1 : Int), (2 : Int))] 0 1 (fun _ => 3)).2.2.1
     (by decide) (by decide),
   (c4_updateAndPrune_spec [((1 : Int), (2 : Int))] 0 1 (fun _ => 0)).2.2.2⟩

end ClaimTheorems

section ClaimTheorems2

/-- C5: an update-message event carrying a move between distinct locations is
a no-op when no touched id occurs in the origin list; otherwise exactly the
touched ids present in the origin list are removed from the origin and
appended-and-re-sorted into the destination, all other locations unchanged.
In particular the spec's move scenario holds. -/
theorem c5_move_event (state : StreamMap) (mv : MoveInfo) (ids : List Int)
    (hne : (mv.orig_stream_id, mv.orig_topic) ≠
      (mv.new_stream_id, mv.new_topic)) :
    ((getList state mv.orig_stream_id mv.orig_topic).filter
        (fun id => ids.contains id) = [] →
      streamsReducer state (UAction.eventUpdateMessage ids (some mv)) =
        Except.ok (state, [])) ∧
    ((getList state mv.orig_stream_id mv.orig_topic).filter
        (fun id => ids.contains id) ≠ [] →
      ∃ s', streamsReducer state (UAction.eventUpdateMessage ids (some mv)) =
          Except.ok (s', []) ∧
        getList s' mv.orig_stream_id mv.orig_topic =
          (getList state mv.orig_stream_id mv.orig_topic).filter
            (fun id => ¬ ids.contains id) ∧
        getList s' mv.new_stream_id mv.new_topic =
          sortList (getList state mv.new_stream_id mv.new_topic ++
            (getList state mv.orig_stream_id mv.orig_topic).filter
              (fun id => ids.contains id)) ∧
        ∀ sid t, ¬ (sid = mv.orig_stream_id ∧ t = mv.orig_topic) →
          ¬ (sid = mv.new_stream_id ∧ t = mv.new_topic) →
          getList s' sid t = getList state sid t) ∧
    streamsReducer [(1, [("a", [3, 7, 10])]), (2, [("b", [1])])]
        (UAction.eventUpdateMessage [7, 10] (some ⟨1, "a", 2, "b"⟩)) =
      Except.ok ([(1, [("a", [3])]), (2, [("b", [1, 7, 10])])], []) := by
  have hcond : ¬ (mv.new_stream_id = mv.orig_stream_id ∧
      mv.new_topic = mv.orig_topic) := by
    intro hcon
    exact hne (by rw [Prod.mk.injEq]; exact ⟨hcon.1.symm, hcon.2.symm⟩)
  have hcond2 : ¬ (mv.orig_stream_id = mv.new_stream_id ∧
      mv.orig_topic = mv.new_topic) := by
    intro hcon
    exact hne (by rw [Prod.mk.injEq]; exact ⟨hcon.1, hcon.2⟩)
  refine ⟨fun hm0 => ?_, fun hm => ?_, rfl⟩
  · simp only [streamsReducer]
    rw [if_pos (by rw [hm0]; rfl)]
  · refine ⟨updateIn2 (deleteMessagesIn state mv.orig_stream_id mv.orig_topic
        ids) mv.new_stream_id mv.new_topic
        (fun msgs => sortList (msgs ++
          (getList state mv.orig_stream_id mv.orig_topic).filter
            (fun id => ids.contains id))), ?_, ?_, ?_, ?_⟩
    · simp only [streamsReducer]
      rw [if_neg (fun hcon => hm (List.isEmpty_iff.mp hcon))]
    · rw [getList_updateIn2, if_neg hcond2, getList_deleteMessagesIn,
        if_pos ⟨rfl, rfl⟩]
    · rw [getList_updateIn2, if_pos ⟨rfl, rfl⟩, getList_deleteMessagesIn,
        if_neg hcond]
    · intro sid t hno hnn
      rw [getList_updateIn2, if_neg hnn, getList_deleteMessagesIn, if_neg hno]

theorem c5_move_event_witness :
    streamsReducer [(5, [("x", [1, 2])])]
        (UAction.eventUpdateMessage [9] (some ⟨5, "x", 6, "y"⟩)) =
      Except.ok ([(5, [("x", [1, 2])])], []) :=
  (c5_move_event [(5, [("x", [1, 2])])] ⟨5, "x", 6, "y"⟩ [9] (by decide)).1
    (by decide)

/-- C6: a read-removal flag event with details present groups the newly-unread
ids by their routed (stream, topic), sorts each group ascending and merges it
into the index by sorted-set union; and the spec's unread-again scenario
holds: from the empty index, messages {20, 21} delivered out of order and
both routed to (1, "x") yield the sorted list [20, 21]. -/
theorem c6_unread_again (state : StreamMap) (messages : List Int)
    (md : List (Int × MessageDetail)) :
    (∃ s', streamsReducer state (UAction.eventUpdateMessageFlags ("read")
        ("remove") false messages (some md)) = Except.ok (s', []) ∧
      ∀ sid t, getList s' sid t =
        setUnion (getList state sid t)
          (sortList (messages.filter (routesTo md sid t)))) ∧
    streamsReducer [] (UAction.eventUpdateMessageFlags ("read") ("remove") false
        [21, 20] (some [(20, ⟨"stream", 1, "x"⟩), (21, ⟨"stream", 1, "x"⟩)])) =
      Except.ok ([(1, [("x", [20, 21])])], []) := by
  refine ⟨⟨_, rfl, fun sid t => ?_⟩, rfl⟩
  rw [getList_mergeUnread (wf_sortNewlyUnread (wf_newlyUnreadOf md messages)),
    getList_sortNewlyUnread, getList_newlyUnreadOf]

/-- C7: a read-removal flag event without `message_details` is recoverable:
the state is returned unchanged and the warning is logged, with no error
raised. -/
theorem c7_missing_details_recoverable (state : StreamMap)
    (messages : List Int) :
    streamsReducer state (UAction.eventUpdateMessageFlags ("read") ("remove") false
      messages none) = Except.ok (state, [warnNoDetails]) := rfl

/-- C8: a new-message event whose message has type "stream" but no flags
raises the invariant violation instead of returning a state; and whenever
every stream new-message carries flags, the reducer returns an ok result for
every action. -/
theorem c8_missing_flags_invariant :
    (∀ (state : StreamMap) (message : NewMessagePayload),
      message.type = "stream" → message.flags = none →
      streamsReducer state (UAction.eventNewMessage message) =
        Except.error invariantNoFlags) ∧
    (∀ (state : StreamMap) (a : UAction),
      (∀ message, a = UAction.eventNewMessage message →
        message.type = "stream" → message.flags ≠ none) →
      ∃ r, streamsReducer state a = Except.ok r) := by
  constructor
  · intro state message htype hflags
    simp only [streamsReducer]
    rw [if_neg (by rw [htype]; simp), hflags]
  · intro state a hflags
    cases a with
    | eventNewMessage message =>
      simp only [streamsReducer]
      by_cases htype : message.type ≠ "stream"
      · rw [if_pos htype]
        exact ⟨_, rfl⟩
      · rw [if_neg htype]
        cases hf : message.flags with
        | none => exact absurd hf (hflags message rfl (not_not.1 htype))
        | some flags =>
          simp only []
          by_cases hread : flags.contains ("read")
          · rw [if_pos hread]
            exact ⟨_, rfl⟩
          · rw [if_neg hread]
            exact ⟨_, rfl⟩
    | resetAccountData => exact ⟨_, rfl⟩
    | registerComplete data => exact ⟨_, rfl⟩
    | messageFetchComplete => exact ⟨_, rfl⟩
    | eventMessageDelete ids => exact ⟨_, rfl⟩
    | eventUpdateMessageFlags flag op all messages md =>
      simp only [streamsReducer]
      by_cases hflag : flag ≠ "read"
      · rw [if_pos hflag]
        exact ⟨_, rfl⟩
      · rw [if_neg hflag]
        by_cases hall : all = true
        · rw [if_pos hall]
          exact ⟨_, rfl⟩
        · rw [if_neg hall]
          by_cases hop : op = "remove"
          · rw [if_pos hop]
            cases md with
            | none => exact ⟨_, rfl⟩
            | some details => exact ⟨_, rfl⟩
          · rw [if_neg hop]
            exact ⟨_, rfl⟩
    | eventUpdateMessage ids move =>
      cases move with
      | none => exact ⟨_, rfl⟩
      | some mv =>
        simp only [streamsReducer]
        by_cases hm : ((getList state mv.orig_stream_id mv.orig_topic).filter
            (fun id => ids.contains id)).isEmpty = true
        · rw [if_pos hm]
          exact ⟨_, rfl⟩
        · rw [if_neg hm]
          exact ⟨_, rfl⟩
    | other => exact ⟨_, rfl⟩

theorem c8_missing_flags_invariant_witness :
    streamsReducer [] (UAction.eventNewMessage ⟨"stream", 3, "t", 42, none⟩) =
      Except.error invariantNoFlags ∧
    ∃ r, streamsReducer [] (UAction.eventNewMessage
      ⟨"stream", 3, "t", 42, some []⟩) = Except.ok r :=
  ⟨c8_missing_flags_invariant.1 [] ⟨"stream", 3, "t", 42, none⟩ rfl rfl,
   c8_missing_flags_invariant.2 [] _ (by
    intro message hm htype
    injection hm with h1
    subst h1
    simp)⟩

end ClaimTheorems2

section ClaimTheorems3

/-- C9: if every sub-reducer result equals the corresponding field of the
defined prior aggregate, the top-level reducer returns the prior aggregate
itself; otherwise it returns the aggregate built from the four sub-reducer
results. -/
theorem c9_aggregate_short_circuit {α β γ : Type} [DecidableEq α]
    [DecidableEq β] [DecidableEq γ] (pmsReducer : Option α → UAction → α)
    (huddlesReducer : Option β → UAction → β)
    (mentionsReducer : Option γ → UAction → γ)
    (s : UnreadState α β γ) (a : UAction) (streams' : StreamMap)
    (w : List String)
    (hstreams : streamsReducer s.streams a = Except.ok (streams', w)) :
    (streams' = s.streams ∧ pmsReducer (some s.pms) a = s.pms ∧
      huddlesReducer (some s.huddles) a = s.huddles ∧
      mentionsReducer (some s.mentions) a = s.mentions →
      reducer pmsReducer huddlesReducer mentionsReducer (some s) a =
        Except.ok (s, w)) ∧
    (¬ (streams' = s.streams ∧ pmsReducer (some s.pms) a = s.pms ∧
        huddlesReducer (some s.huddles) a = s.huddles ∧
        mentionsReducer (some s.mentions) a = s.mentions) →
      reducer pmsReducer huddlesReducer mentionsReducer (some s) a =
        Except.ok (⟨streams', pmsReducer (some s.pms) a,
          huddlesReducer (some s.huddles) a,
          mentionsReducer (some s.mentions) a⟩, w)) := by
  constructor
  · intro hcond
    simp only [reducer, Option.map_some', Option.getD_some]
    rw [hstreams]
    simp only []
    rw [if_pos hcond]
  · intro hcond
    simp only [reducer, Option.map_some', Option.getD_some]
    rw [hstreams]
    simp only []
    rw [if_neg hcond]

theorem c9_aggregate_short_circuit_witness :
    reducer (fun _ _ => (0 : Nat)) (fun _ _ => (0 : Nat))
      (fun _ _ => (0 : Nat)) (some ⟨[], 0, 0, 0⟩) UAction.other =
      Except.ok (⟨[], 0, 0, 0⟩, []) :=
  (c9_aggregate_short_circuit (fun _ _ => (0 : Nat)) (fun _ _ => (0 : Nat))
    (fun _ _ => (0 : Nat)) ⟨[], 0, 0, 0⟩ UAction.other [] [] rfl).1
    ⟨rfl, rfl, rfl, rfl⟩

theorem newlyUnreadOf_filter (md : List (Int × MessageDetail))
    (messages : List Int) :
    newlyUnreadOf md (messages.filter (fun id =>
      match alGet md id with
      | some m => decide (m.type = "stream")
      | none => false)) = newlyUnreadOf md messages := by
  have aux : ∀ (msgs : List Int) (acc : StreamMap),
      (msgs.filter (fun id =>
        match alGet md id with
        | some m => decide (m.type = "stream")
        | none => false)).foldl (fun acc id =>
          match alGet md id with
          | some message =>
            if message.type = "stream" then
              updateIn2 acc message.stream_id message.topic (fun l => l ++ [id])
            else acc
          | none => acc) acc
      = msgs.foldl (fun acc id =>
          match alGet md id with
          | some message =>
            if message.type = "stream" then
              updateIn2 acc message.stream_id message.topic (fun l => l ++ [id])
            else acc
          | none => acc) acc := by
    intro msgs
    induction msgs with
    | nil =>
      intro acc
      rfl
    | cons id rest ih =>
      intro acc
      rw [List.filter_cons]
      cases hmd : alGet md id with
      | none =>
        simp only []
        rw [if_neg (by simp), ih, List.foldl_cons]
        simp only [hmd]
      | some message =>
        simp only []
        by_cases ht : message.type = "stream"
        · rw [if_pos (by simp [ht]), List.foldl_cons, ih, List.foldl_cons]
        · rw [if_neg (by simp [ht]), ih, List.foldl_cons]
          simp only [hmd]
          rw [if_neg ht]
  simp only [newlyUnreadOf]
  exact aux messages []

theorem streamsReducer_remove_eq (state : StreamMap) (messages : List Int)
    (md : List (Int × MessageDetail)) :
    streamsReducer state (UAction.eventUpdateMessageFlags ("read") ("remove") false
        messages (some md)) =
      Except.ok (alMergeWith (fun oldTopicsMap newTopicsMap =>
        alMergeWith (fun oldUnread newUnread => setUnion oldUnread newUnread)
          oldTopicsMap newTopicsMap) state
        (sortNewlyUnread (newlyUnreadOf md messages)), []) := rfl

/-- C10 (implicit): in the read-removal path with details present, ids whose
entry is missing from `message_details` or whose entry is not of type
"stream" are silently skipped — the result equals the result for the
filtered messages list, and the event produces an ok state with no warning
logged. -/
theorem c10_skip_unrouted_ids (state : StreamMap) (messages : List Int)
    (md : List (Int × MessageDetail)) :
    streamsReducer state (UAction.eventUpdateMessageFlags ("read") ("remove") false
        messages (some md)) =
      streamsReducer state (UAction.eventUpdateMessageFlags ("read") ("remove")
        false (messages.filter (fun id =>
          match alGet md id with
          | some m => decide (m.type = "stream")
          | none => false)) (some md)) ∧
    ∃ s', streamsReducer state (UAction.eventUpdateMessageFlags ("read") ("remove")
        false messages (some md)) = Except.ok (s', []) := by
  constructor
  · rw [streamsReducer_remove_eq, streamsReducer_remove_eq, newlyUnreadOf_filter]
  · exact ⟨_, rfl⟩

end ClaimTheorems3
